import Mathlib

/-!
Verification of the level-synchronous parallel BFS occurrence-search engine
(`src/bfs_thread.cpp`) against its sequential oracle (`src/bfs_seq.cpp`).

The C++ engines operate on a `Graph` (adjacency lists `nodes[u]->adj`, node
payloads `nodes[u]->value`, node count `n_nodes`, see `src/graph.cpp`).  We
embed the graph as a list of nodes.  Node ids are `Nat` (C++ `int`/`uint`
indices, always non-negative in every reachable execution), payloads are `Int`
(C++ `short` promoted to `int` for the `==` comparison with `search_value`).

Mutable state is threaded explicitly: the `visited` marker array becomes a
`Finset Nat` (the set of indices holding `1`), the frontier and the queue
become `List Nat`.  The run of the parallel engine is modelled by
sequentialising the workers of each synchronisation round in worker order
(worker 0 first); every theorem about per-round results is proved
order-independent, which is the code's own "benign race" argument.  The C++
`while` loops are modelled with an explicit round budget (`g.n_nodes` is
proved sufficient below).
-/

/-- One graph node: payload `value` and adjacency list `adj`
(`class node` in `src/graph.cpp`). -/
structure GNode where
  value : Int
  adj : List Nat
deriving DecidableEq, Inhabited

/-- The graph: `class Graph` of `src/graph.cpp`, with `nodes` the vector of
node objects.  `n_nodes` is the stored node count, equal to the vector length. -/
structure Graph where
  nodes : List GNode
deriving DecidableEq, Inhabited

/-- `g->n_nodes`. -/
def Graph.n_nodes (g : Graph) : Nat := g.nodes.length

/-- `g->nodes[u]->value` (out-of-range reads, UB in C++, default to node `⟨0, []⟩`;
all claims assume in-range accesses via `WellFormed`). -/
def Graph.valueOf (g : Graph) (u : Nat) : Int := (g.nodes.getD u default).value

/-- `g->nodes[u]->adj`. -/
def Graph.adjOf (g : Graph) (u : Nat) : List Nat := (g.nodes.getD u default).adj

/-- Every adjacency entry is a valid node index.  The generator
(`Graph::generate_graph`) only ever adds edges between valid indices, and the
engines index `visited`/`nodes` with adjacency entries, so this is the C++
precondition for race-free, in-bounds execution. -/
def WellFormed (g : Graph) : Prop :=
  ∀ u < g.n_nodes, ∀ v ∈ g.adjOf u, v < g.n_nodes

instance (g : Graph) : Decidable (WellFormed g) := by
  unfold WellFormed; infer_instance

/-- Reachability along adjacency-list edges, the specification-side notion
("nodes reachable from the start node"). -/
inductive Reachable (g : Graph) (s : Nat) : Nat → Prop
  | refl : Reachable g s s
  | step : ∀ u v, Reachable g s u → v ∈ g.adjOf u → Reachable g s v

/-- Set of adjacency successors of a set of nodes. -/
def adjFin (g : Graph) (S : Finset Nat) : Finset Nat :=
  S.biUnion (fun u => (g.adjOf u).toFinset)

/-- One saturation step of the reachable-set computation. -/
def expandR (g : Graph) (S : Finset Nat) : Finset Nat := S ∪ adjFin g S

/-- Computable reachable set: saturate `{s}` for `n_nodes` steps (enough for a
fixpoint, proved below). -/
def reachFin (g : Graph) (s : Nat) : Finset Nat := (expandR g)^[g.n_nodes] {s}

theorem mem_adjFin {g : Graph} {S : Finset Nat} {x : Nat} :
    x ∈ adjFin g S ↔ ∃ u ∈ S, x ∈ g.adjOf u := by
  simp [adjFin, Finset.mem_biUnion]

theorem adjFin_union (g : Graph) (S T : Finset Nat) :
    adjFin g (S ∪ T) = adjFin g S ∪ adjFin g T := by
  ext x
  simp [mem_adjFin, Finset.mem_union, or_and_right, exists_or]

theorem adjFin_insert (g : Graph) (a : Nat) (S : Finset Nat) :
    adjFin g (insert a S) = (g.adjOf a).toFinset ∪ adjFin g S := by
  ext x; simp [mem_adjFin, Finset.mem_insert, or_and_right, exists_or]

theorem adjFin_mono (g : Graph) {S T : Finset Nat} (h : S ⊆ T) :
    adjFin g S ⊆ adjFin g T := Finset.biUnion_subset_biUnion_of_subset_left _ h

theorem subset_expandR (g : Graph) (S : Finset Nat) : S ⊆ expandR g S :=
  Finset.subset_union_left

theorem expandR_mono (g : Graph) {S T : Finset Nat} (h : S ⊆ T) :
    expandR g S ⊆ expandR g T :=
  Finset.union_subset_union h (adjFin_mono g h)

theorem expandR_subset_range {g : Graph} (hg : WellFormed g) {S : Finset Nat}
    (hS : S ⊆ Finset.range g.n_nodes) : expandR g S ⊆ Finset.range g.n_nodes := by
  intro x hx
  rcases Finset.mem_union.mp hx with h | h
  · exact hS h
  · rcases mem_adjFin.mp h with ⟨u, hu, hadj⟩
    exact Finset.mem_range.mpr (hg u (Finset.mem_range.mp (hS hu)) x hadj)

theorem iterate_expandR_subset_range {g : Graph} (hg : WellFormed g) {s : Nat}
    (hs : s < g.n_nodes) (k : Nat) :
    (expandR g)^[k] {s} ⊆ Finset.range g.n_nodes := by
  induction k with
  | zero => simpa using Finset.singleton_subset_iff.mpr (Finset.mem_range.mpr hs)
  | succ k ih =>
    rw [Function.iterate_succ_apply']
    exact expandR_subset_range hg ih

theorem iterate_expandR_mono_succ (g : Graph) (s : Nat) (k : Nat) :
    (expandR g)^[k] {s} ⊆ (expandR g)^[k+1] {s} := by
  rw [Function.iterate_succ_apply']
  exact subset_expandR g _

theorem iterate_expandR_stab (g : Graph) (s : Nat) {k : Nat}
    (h : (expandR g)^[k+1] {s} = (expandR g)^[k] {s}) :
    ∀ m, k ≤ m → (expandR g)^[m] {s} = (expandR g)^[k] {s} := by
  intro m hm
  induction m with
  | zero => cases Nat.le_zero.mp hm; rfl
  | succ m ih =>
    rcases Nat.lt_or_ge k (m+1) with hlt | hge
    · have hkm : k ≤ m := Nat.lt_succ_iff.mp hlt
      have hm' := ih hkm
      rw [Function.iterate_succ_apply', hm']
      have hk1 := Function.iterate_succ_apply' (expandR g) k ({s} : Finset Nat)
      rw [← hk1, h]
    · have : k = m + 1 := Nat.le_antisymm hm hge
      rw [this]

/-- The reachable-set computation hits a fixpoint within `n_nodes` iterations. -/
theorem expandR_reachFin {g : Graph} (hg : WellFormed g) {s : Nat} (hs : s < g.n_nodes) :
    expandR g (reachFin g s) = reachFin g s := by
  set n := g.n_nodes with hn
  -- some step below n is already stationary
  have hex : ∃ k < n, (expandR g)^[k+1] {s} = (expandR g)^[k] {s} := by
    by_contra hno
    push_neg at hno
    have hcard : ∀ k ≤ n, k + 1 ≤ ((expandR g)^[k] {s}).card := by
      intro k hk
      induction k with
      | zero => simp
      | succ k ih =>
        have hk' : k ≤ n := Nat.le_of_succ_le hk
        have hne := hno k (Nat.lt_of_succ_le hk)
        have hss : (expandR g)^[k] {s} ⊂ (expandR g)^[k+1] {s} :=
          lt_of_le_of_ne (iterate_expandR_mono_succ g s k) (fun he => hne he.symm)
        have := Finset.card_lt_card hss
        omega
    have h1 := hcard n le_rfl
    have h2 : ((expandR g)^[n] {s}).card ≤ n := by
      calc ((expandR g)^[n] {s}).card ≤ (Finset.range n).card :=
            Finset.card_le_card (iterate_expandR_subset_range hg hs n)
        _ = n := Finset.card_range n
    omega
  rcases hex with ⟨k, hk, hfix⟩
  have hstab := iterate_expandR_stab g s hfix
  have h1 : (expandR g)^[n] {s} = (expandR g)^[k] {s} := hstab n (Nat.le_of_lt hk)
  have h2 : (expandR g)^[n+1] {s} = (expandR g)^[k] {s} := hstab (n+1) (by omega)
  show expandR g ((expandR g)^[n] {s}) = (expandR g)^[n] {s}
  rw [h1]
  have hk1 := Function.iterate_succ_apply' (expandR g) n ({s} : Finset Nat)
  calc expandR g ((expandR g)^[k] {s}) = expandR g ((expandR g)^[n] {s}) := by rw [h1]
    _ = (expandR g)^[n+1] {s} := hk1.symm
    _ = (expandR g)^[k] {s} := h2

theorem mem_reachFin_self {g : Graph} {s : Nat} : s ∈ reachFin g s := by
  have h0 : s ∈ ({s} : Finset Nat) := Finset.mem_singleton_self s
  have : ∀ k, s ∈ (expandR g)^[k] {s} := by
    intro k
    induction k with
    | zero => simp
    | succ k ih =>
      rw [Function.iterate_succ_apply']
      exact subset_expandR g _ ih
  exact this _

/-- Soundness: everything in the computed set is reachable. -/
theorem reachFin_sound {g : Graph} {s : Nat} : ∀ u ∈ reachFin g s, Reachable g s u := by
  have : ∀ k, ∀ u ∈ (expandR g)^[k] {s}, Reachable g s u := by
    intro k
    induction k with
    | zero => intro u hu; simp at hu; subst hu; exact Reachable.refl
    | succ k ih =>
      intro u hu
      rw [Function.iterate_succ_apply'] at hu
      rcases Finset.mem_union.mp hu with h | h
      · exact ih u h
      · rcases mem_adjFin.mp h with ⟨w, hw, hadj⟩
        exact Reachable.step w u (ih w hw) hadj
  exact this _

/-- Completeness: the computed set is adjacency-closed, hence contains every
reachable node. -/
theorem reachFin_complete {g : Graph} (hg : WellFormed g) {s : Nat} (hs : s < g.n_nodes) :
    ∀ u, Reachable g s u → u ∈ reachFin g s := by
  intro u hr
  induction hr with
  | refl => exact mem_reachFin_self
  | step w v _ hadj ih =>
    have hcl := expandR_reachFin hg hs
    have : v ∈ expandR g (reachFin g s) :=
      Finset.mem_union.mpr (Or.inr (mem_adjFin.mpr ⟨w, ih, hadj⟩))
    rwa [hcl] at this

theorem mem_reachFin_iff {g : Graph} (hg : WellFormed g) {s : Nat} (hs : s < g.n_nodes)
    (u : Nat) : u ∈ reachFin g s ↔ Reachable g s u :=
  ⟨reachFin_sound u, reachFin_complete hg hs u⟩

/-- A set containing `s`, adjacency-closed, and consisting of reachable nodes
is exactly the reachable set. -/
theorem eq_reachFin_of_closed {g : Graph} (hg : WellFormed g) {s : Nat} (hs : s < g.n_nodes)
    {V : Finset Nat} (hsV : s ∈ V) (hreach : ∀ u ∈ V, Reachable g s u)
    (hclosed : ∀ u ∈ V, ∀ v ∈ g.adjOf u, v ∈ V) : V = reachFin g s := by
  apply Finset.Subset.antisymm
  · intro u hu
    exact reachFin_complete hg hs u (hreach u hu)
  · intro u hu
    have hr := reachFin_sound (g := g) (s := s) u hu
    induction hr with
    | refl => exact hsV
    | step w v hwr hadj ih =>
      exact hclosed w (ih (reachFin_complete hg hs w hwr)) v hadj

/-!
## Neighbour expansion

Both engines run, per taken node `curr`, the same inner loop
(`for (auto &val : g->nodes[curr]->adj) if (visited[val] == 0) { push_back(val); visited[val] = 1; }`
in `bfs_thread.cpp`; the queue variant in `bfs_seq.cpp`).  `pushNeighbors`
threads the visited set and appends the newly discovered nodes to `buf`
(a worker's partial frontier, resp. the tail of the sequential queue).
-/

/-- Inner adjacency loop shared by all engines: scan `g.adjOf curr`; every
neighbour not yet visited is appended to `buf` and marked visited. -/
def pushNeighbors (g : Graph) (vis : Finset Nat) (buf : List Nat) (curr : Nat) :
    Finset Nat × List Nat :=
  (g.adjOf curr).foldl
    (fun p val => if val ∈ p.1 then p else (insert val p.1, p.2 ++ [val]))
    (vis, buf)

/-- General fold characterisation of the adjacency loop, over an arbitrary
scanned list `l`. -/
theorem foldPush_spec (g : Graph) (l : List Nat) :
    ∀ (vis : Finset Nat) (buf : List Nat),
    (l.foldl (fun p val => if val ∈ p.1 then p else (insert val p.1, p.2 ++ [val]))
        (vis, buf)).1 = vis ∪ l.toFinset ∧
    (l.foldl (fun p val => if val ∈ p.1 then p else (insert val p.1, p.2 ++ [val]))
        (vis, buf)).2.toFinset = buf.toFinset ∪ (l.toFinset \ vis) ∧
    ((∀ u ∈ buf, u ∈ vis) → buf.Nodup →
      (l.foldl (fun p val => if val ∈ p.1 then p else (insert val p.1, p.2 ++ [val]))
        (vis, buf)).2.Nodup ∧
      (∀ u ∈ (l.foldl (fun p val => if val ∈ p.1 then p else (insert val p.1, p.2 ++ [val]))
        (vis, buf)).2, u ∈ (l.foldl
          (fun p val => if val ∈ p.1 then p else (insert val p.1, p.2 ++ [val]))
            (vis, buf)).1) ∧
      (l.foldl (fun p val => if val ∈ p.1 then p else (insert val p.1, p.2 ++ [val]))
        (vis, buf)).2.length = buf.length + (l.toFinset \ vis).card) := by
  induction l with
  | nil =>
    intro vis buf
    refine ⟨by simp, by simp, fun hb hnd => ⟨hnd, ?_, by simp⟩⟩
    intro u hu
    simp only [List.foldl_nil] at hu ⊢
    exact hb u hu
  | cons a l ih =>
    intro vis buf
    by_cases ha : a ∈ vis
    · simp only [List.foldl_cons, if_pos ha]
      obtain ⟨h1, h2, h3⟩ := ih vis buf
      have hset : vis ∪ l.toFinset = vis ∪ (a :: l).toFinset := by
        ext x
        by_cases hxa : x = a
        · subst hxa; simp [ha]
        · simp [hxa]
      have hsd : l.toFinset \ vis = (a :: l).toFinset \ vis := by
        ext x
        by_cases hxa : x = a
        · subst hxa; simp [ha]
        · simp [hxa]
      refine ⟨by rw [h1, hset], by rw [h2, hsd], ?_⟩
      intro hb hnd
      obtain ⟨n1, n2, n3⟩ := h3 hb hnd
      exact ⟨n1, n2, by rw [n3, hsd]⟩
    · simp only [List.foldl_cons, if_neg ha]
      obtain ⟨h1, h2, h3⟩ := ih (insert a vis) (buf ++ [a])
      have hset : insert a vis ∪ l.toFinset = vis ∪ (a :: l).toFinset := by
        ext x
        by_cases hxa : x = a
        · subst hxa; simp
        · simp [hxa]
      have hsd : (buf ++ [a]).toFinset ∪ (l.toFinset \ insert a vis) =
          buf.toFinset ∪ ((a :: l).toFinset \ vis) := by
        ext x
        by_cases hxa : x = a
        · subst hxa; simp [ha]
        · simp [hxa]
      refine ⟨by rw [h1, hset], by rw [h2, hsd], ?_⟩
      intro hb hnd
      have hb' : ∀ u ∈ buf ++ [a], u ∈ insert a vis := by
        intro u hu
        rcases List.mem_append.mp hu with h | h
        · exact Finset.mem_insert_of_mem (hb u h)
        · simp only [List.mem_singleton] at h
          rw [h]
          exact Finset.mem_insert_self a vis
      have hnd' : (buf ++ [a]).Nodup := by
        rw [List.nodup_append]
        refine ⟨hnd, List.nodup_singleton a, ?_⟩
        intro x hx
        simp only [List.mem_singleton]
        intro hxa
        subst hxa
        exact ha (hb x hx)
      obtain ⟨n1, n2, n3⟩ := h3 hb' hnd'
      refine ⟨n1, n2, ?_⟩
      rw [n3]
      simp only [List.length_append, List.length_singleton]
      have hsd2 : (a :: l).toFinset \ vis = insert a (l.toFinset \ insert a vis) := by
        ext x
        by_cases hxa : x = a
        · subst hxa; simp [ha]
        · simp [hxa]
      rw [hsd2, Finset.card_insert_of_not_mem (by simp)]
      omega

theorem pushNeighbors_fst (g : Graph) (vis : Finset Nat) (buf : List Nat) (curr : Nat) :
    (pushNeighbors g vis buf curr).1 = vis ∪ (g.adjOf curr).toFinset :=
  (foldPush_spec g (g.adjOf curr) vis buf).1

theorem pushNeighbors_snd_toFinset (g : Graph) (vis : Finset Nat) (buf : List Nat)
    (curr : Nat) :
    (pushNeighbors g vis buf curr).2.toFinset =
      buf.toFinset ∪ ((g.adjOf curr).toFinset \ vis) :=
  (foldPush_spec g (g.adjOf curr) vis buf).2.1

theorem pushNeighbors_props (g : Graph) (vis : Finset Nat) (buf : List Nat) (curr : Nat)
    (hb : ∀ u ∈ buf, u ∈ vis) (hnd : buf.Nodup) :
    (pushNeighbors g vis buf curr).2.Nodup ∧
    (∀ u ∈ (pushNeighbors g vis buf curr).2, u ∈ (pushNeighbors g vis buf curr).1) ∧
    (pushNeighbors g vis buf curr).2.length =
      buf.length + ((g.adjOf curr).toFinset \ vis).card :=
  (foldPush_spec g (g.adjOf curr) vis buf).2.2 hb hnd

/-!
## Sequential BFS (`sequential_bfs` in `src/bfs_seq.cpp`)

Queue-driven BFS: pop the front node, count it if its value matches, push the
unvisited neighbours (marking them).  The C++ `while (!q.empty())` loop is
given the explicit step budget `g.n_nodes`, proved sufficient below
(every node enters the queue at most once).
-/

/-- Number of value matches inside a node set. -/
def matchFin (g : Graph) (sv : Int) (S : Finset Nat) : Nat :=
  (S.filter (fun u => g.valueOf u = sv)).card

theorem matchFin_insert (g : Graph) (sv : Int) (a : Nat) (X : Finset Nat) (h : a ∉ X) :
    matchFin g sv (insert a X) =
      matchFin g sv X + (if g.valueOf a = sv then 1 else 0) := by
  unfold matchFin
  rw [Finset.filter_insert]
  split
  · rw [Finset.card_insert_of_not_mem (fun hc => h (Finset.mem_of_mem_filter a hc))]
  · simp

/-- The loop of `sequential_bfs`: `fuel` bounds the remaining iterations. -/
def seqLoop (g : Graph) (sv : Int) : Nat → List Nat → Finset Nat → Nat → Nat
  | 0, _, _, occ => occ
  | _+1, [], _, occ => occ
  | fuel+1, curr :: qrest, vis, occ =>
      let occ' := if g.valueOf curr = sv then occ + 1 else occ
      let p := pushNeighbors g vis qrest curr
      seqLoop g sv fuel p.2 p.1 occ'

/-- `sequential_bfs(g, start_node, search_value)`: seed the queue with the
start node, mark it visited, loop. -/
def sequential_bfs (g : Graph) (start_node : Nat) (search_value : Int) : Nat :=
  seqLoop g search_value g.n_nodes [start_node] {start_node} 0

/-- Loop invariant of the sequential BFS. -/
def SeqInv (g : Graph) (s : Nat) (sv : Int) (q : List Nat) (vis : Finset Nat)
    (occ : Nat) : Prop :=
  q.Nodup ∧ (∀ u ∈ q, u ∈ vis) ∧ vis ⊆ Finset.range g.n_nodes ∧ s ∈ vis ∧
  (∀ u ∈ vis, Reachable g s u) ∧
  (∀ u ∈ vis, u ∉ q → ∀ v ∈ g.adjOf u, v ∈ vis) ∧
  occ = matchFin g sv (vis \ q.toFinset)

theorem seqInv_done {g : Graph} (hg : WellFormed g) {s : Nat} (hs : s < g.n_nodes)
    {sv : Int} {vis : Finset Nat} {occ : Nat} (hinv : SeqInv g s sv [] vis occ) :
    occ = matchFin g sv (reachFin g s) := by
  obtain ⟨-, -, -, hsv, hreach, hclosed, hocc⟩ := hinv
  have hv : vis = reachFin g s :=
    eq_reachFin_of_closed hg hs hsv hreach
      (fun u hu v hv => hclosed u hu (List.not_mem_nil u) v hv)
  rw [hocc]
  simp [hv]

theorem seqLoop_correct {g : Graph} (hg : WellFormed g) {s : Nat} (hs : s < g.n_nodes)
    (sv : Int) :
    ∀ (fuel : Nat) (q : List Nat) (vis : Finset Nat) (occ : Nat),
      SeqInv g s sv q vis occ →
      q.length + (Finset.range g.n_nodes \ vis).card ≤ fuel →
      seqLoop g sv fuel q vis occ = matchFin g sv (reachFin g s) := by
  intro fuel
  induction fuel with
  | zero =>
    intro q vis occ hinv hfuel
    have hq : q = [] := by
      cases q with
      | nil => rfl
      | cons a l => simp at hfuel
    subst hq
    exact seqInv_done hg hs hinv
  | succ fuel ih =>
    intro q vis occ hinv hfuel
    match q with
    | [] => exact seqInv_done hg hs hinv
    | curr :: qrest =>
      obtain ⟨hnd, hqv, hrange, hsv, hreach, hclosed, hocc⟩ := hinv
      have hndr : qrest.Nodup := hnd.of_cons
      have hcq : curr ∉ qrest := (List.nodup_cons.mp hnd).1
      have hcv : curr ∈ vis := hqv curr (List.mem_cons_self curr qrest)
      have hcn : curr < g.n_nodes := Finset.mem_range.mp (hrange hcv)
      have hadjr : ∀ v ∈ g.adjOf curr, v < g.n_nodes := hg curr hcn
      have hqrv : ∀ u ∈ qrest, u ∈ vis := fun u hu => hqv u (List.mem_cons_of_mem curr hu)
      have h1 := pushNeighbors_fst g vis qrest curr
      have h2 := pushNeighbors_snd_toFinset g vis qrest curr
      obtain ⟨hnd', hmem', hlen'⟩ := pushNeighbors_props g vis qrest curr hqrv hndr
      set p := pushNeighbors g vis qrest curr with hp
      have hadjTsub : (g.adjOf curr).toFinset ⊆ Finset.range g.n_nodes := by
        intro v hv
        exact Finset.mem_range.mpr (hadjr v (List.mem_toFinset.mp hv))
      have hqrp : ∀ u ∈ qrest, u ∈ p.2 := by
        intro u hu
        rw [← List.mem_toFinset, h2]
        exact Finset.mem_union_left _ (List.mem_toFinset.mpr hu)
      have hnewp : ∀ u, u ∈ (g.adjOf curr).toFinset → u ∉ vis → u ∈ p.2 := by
        intro u hu huv
        rw [← List.mem_toFinset, h2]
        exact Finset.mem_union_right _ (Finset.mem_sdiff.mpr ⟨hu, huv⟩)
      -- new invariant
      have hinv' : SeqInv g s sv p.2 p.1 (if g.valueOf curr = sv then occ + 1 else occ) := by
        refine ⟨hnd', hmem', ?_, ?_, ?_, ?_, ?_⟩
        · rw [h1]
          exact Finset.union_subset hrange hadjTsub
        · rw [h1]; exact Finset.mem_union_left _ hsv
        · intro u hu
          rw [h1] at hu
          rcases Finset.mem_union.mp hu with h | h
          · exact hreach u h
          · exact Reachable.step curr u (hreach curr hcv) (List.mem_toFinset.mp h)
        · intro u hu hunq v hv
          rw [h1] at hu ⊢
          by_cases huc : u = curr
          · subst huc
            exact Finset.mem_union_right _ (List.mem_toFinset.mpr hv)
          · rcases Finset.mem_union.mp hu with h | h
            · have hunn : u ∉ curr :: qrest := by
                intro hmem
                rcases List.mem_cons.mp hmem with h' | h'
                · exact huc h'
                · exact hunq (hqrp u h')
              exact Finset.mem_union_left _ (hclosed u h hunn v hv)
            · by_cases huv : u ∈ vis
              · have hunn : u ∉ curr :: qrest := by
                  intro hmem
                  rcases List.mem_cons.mp hmem with h' | h'
                  · exact huc h'
                  · exact hunq (hqrp u h')
                exact Finset.mem_union_left _ (hclosed u huv hunn v hv)
              · exact absurd (hnewp u h huv) hunq
        · have hkey : p.1 \ p.2.toFinset = insert curr (vis \ (curr :: qrest).toFinset) := by
            rw [h1, h2]
            ext x
            by_cases hxc : x = curr
            · subst hxc
              simp only [Finset.mem_sdiff, Finset.mem_union, Finset.mem_insert,
                List.mem_toFinset, List.mem_cons, true_or, iff_true]
              refine ⟨Or.inl hcv, ?_⟩
              push_neg
              exact ⟨hcq, fun _ => hcv⟩
            · simp only [Finset.mem_sdiff, Finset.mem_union, Finset.mem_insert,
                List.mem_toFinset, List.mem_cons, hxc, false_or]
              tauto
          rw [hkey]
          have hcnotin : curr ∉ vis \ (curr :: qrest).toFinset := by
            simp
          rw [matchFin_insert g sv curr _ hcnotin, ← hocc]
          split <;> rfl
      have hfuel' : p.2.length + (Finset.range g.n_nodes \ p.1).card ≤ fuel := by
        have hsd : Finset.range g.n_nodes \ p.1 =
            (Finset.range g.n_nodes \ vis) \ ((g.adjOf curr).toFinset \ vis) := by
          rw [h1]
          ext x
          simp only [Finset.mem_sdiff, Finset.mem_union]
          tauto
        have hsub : (g.adjOf curr).toFinset \ vis ⊆ Finset.range g.n_nodes \ vis := by
          intro x hx
          rcases Finset.mem_sdiff.mp hx with ⟨h1', h2'⟩
          exact Finset.mem_sdiff.mpr ⟨hadjTsub h1', h2'⟩
        have hcard : (Finset.range g.n_nodes \ p.1).card =
            (Finset.range g.n_nodes \ vis).card - ((g.adjOf curr).toFinset \ vis).card := by
          rw [hsd, Finset.card_sdiff hsub]
        have hle : ((g.adjOf curr).toFinset \ vis).card ≤
            (Finset.range g.n_nodes \ vis).card :=
          Finset.card_le_card hsub
        simp only [List.length_cons] at hfuel
        omega
      exact ih p.2 p.1 _ hinv' hfuel'

/-- `sequential_bfs` returns the number of reachable nodes whose value matches. -/
theorem sequential_bfs_correct {g : Graph} (hg : WellFormed g) {s : Nat}
    (hs : s < g.n_nodes) (sv : Int) :
    sequential_bfs g s sv = matchFin g sv (reachFin g s) := by
  unfold sequential_bfs
  apply seqLoop_correct hg hs sv
  · refine ⟨List.nodup_singleton s, ?_, ?_, Finset.mem_singleton_self s, ?_, ?_, ?_⟩
    · intro u hu
      simp only [List.mem_singleton] at hu
      rw [hu]
      exact Finset.mem_singleton_self s
    · simpa using Finset.mem_range.mpr hs
    · intro u hu
      rw [Finset.mem_singleton] at hu
      subst hu
      exact Reachable.refl
    · intro u hu hnq
      rw [Finset.mem_singleton] at hu
      subst hu
      exact absurd (List.mem_singleton_self u) hnq
    · simp [matchFin]
  · have hsub : ({s} : Finset Nat) ⊆ Finset.range g.n_nodes := by
      simpa using Finset.mem_range.mpr hs
    rw [Finset.card_sdiff hsub]
    simp only [List.length_singleton, Finset.card_range, Finset.card_singleton]
    omega

/-!
## Frontier partitioning of `parallel_bfs` (`src/bfs_thread.cpp`, worker body)

Per round each worker computes, without synchronisation,
`number_of_chunks = curr_size / chunk_size` and scans chunks
`i = thread_no, thread_no + n_workers, ...` (< `number_of_chunks`), each chunk
covering indices `[i*chunk_size, (i+1)*chunk_size)`; worker `0` additionally
scans the remainder `[number_of_chunks*chunk_size, curr_size)` when
`curr_size % chunk_size > 0`.
-/

/-- `CHUNK_SIZE` from `src/config.hpp`. -/
def CHUNK_SIZE : Nat := 2

/-- Chunk ids scanned by worker `t`: the loop `for (i = t; i < nchunks; i += W)`.
For `t < W` these are exactly the chunk ids congruent to `t` mod `W`, ascending. -/
def workerChunkIds (nchunks W t : Nat) : List Nat :=
  (List.range nchunks).filter (fun c => c % W = t)

/-- Indices of chunk `i`: `[i*cs, i*cs + cs)`. -/
def chunkIdx (cs i : Nat) : List Nat := (List.range cs).map (fun j => i * cs + j)

/-- All frontier indices scanned by worker `t` in one round, in scan order:
the full chunks, then (worker `0` only) the remainder. -/
def workerIdxs (L cs W t : Nat) : List Nat :=
  ((workerChunkIds (L / cs) W t).flatMap (chunkIdx cs)) ++
    (if t = 0 ∧ L % cs > 0 then List.range' ((L / cs) * cs) (L - (L / cs) * cs) else [])

/-- The worker a frontier index is assigned to. -/
def assignW (L cs W j : Nat) : Nat :=
  if j / cs < L / cs then (j / cs) % W else 0

theorem mem_chunkIdx {cs i j : Nat} :
    j ∈ chunkIdx cs i ↔ ∃ k < cs, j = i * cs + k := by
  simp only [chunkIdx, List.mem_map, List.mem_range]
  constructor
  · rintro ⟨k, hk, rfl⟩; exact ⟨k, hk, rfl⟩
  · rintro ⟨k, hk, rfl⟩; exact ⟨k, hk, rfl⟩

theorem chunkIdx_div {cs i j : Nat} (hcs : 0 < cs) (h : j ∈ chunkIdx cs i) :
    j / cs = i := by
  rcases mem_chunkIdx.mp h with ⟨k, hk, rfl⟩
  rw [Nat.mul_comm i cs, Nat.mul_add_div hcs]
  simp [Nat.div_eq_of_lt hk]

theorem chunkIdx_nodup (cs i : Nat) : (chunkIdx cs i).Nodup :=
  (List.nodup_range cs).map (fun a b h => by omega)

theorem mem_workerIdxs {L cs W t : Nat} (hcs : 1 ≤ cs) (hW : 1 ≤ W) (ht : t < W)
    (j : Nat) : j ∈ workerIdxs L cs W t ↔ j < L ∧ assignW L cs W j = t := by
  unfold workerIdxs
  rw [List.mem_append, List.mem_flatMap]
  constructor
  · rintro (⟨c, hc, hj⟩ | hextra)
    · rw [workerChunkIds, List.mem_filter, List.mem_range] at hc
      obtain ⟨hclt, hcmod⟩ := hc
      have hdiv : j / cs = c := chunkIdx_div hcs hj
      rcases mem_chunkIdx.mp hj with ⟨k, hk, rfl⟩
      have hjL : c * cs + k < L := by
        have h1 : c * cs + k < (c + 1) * cs := by
          rw [Nat.succ_mul]; omega
        have h2 : (c + 1) * cs ≤ (L / cs) * cs := Nat.mul_le_mul_right cs hclt
        have h3 : (L / cs) * cs ≤ L := Nat.div_mul_le_self L cs
        omega
      refine ⟨hjL, ?_⟩
      rw [assignW, hdiv, if_pos hclt]
      simpa using hcmod
    · split at hextra
      · rename_i hcond
        rw [List.mem_range'_1] at hextra
        have hq : (L / cs) * cs ≤ j := hextra.1
        have hjL : j < L := by omega
        have hge : ¬ j / cs < L / cs := by
          intro hlt
          have : j < (L / cs) * cs := by
            calc j = cs * (j / cs) + j % cs := (Nat.div_add_mod j cs).symm
              _ < cs * (j / cs) + cs := by
                  have := Nat.mod_lt j hcs
                  omega
              _ = (j / cs + 1) * cs := by ring
              _ ≤ (L / cs) * cs := Nat.mul_le_mul_right cs hlt
          omega
        exact ⟨hjL, by rw [assignW, if_neg hge]; exact hcond.1.symm⟩
      · exact absurd hextra (List.not_mem_nil j)
  · rintro ⟨hjL, hassign⟩
    rw [assignW] at hassign
    by_cases hlt : j / cs < L / cs
    · rw [if_pos hlt] at hassign
      left
      refine ⟨j / cs, ?_, ?_⟩
      · rw [workerChunkIds, List.mem_filter, List.mem_range]
        exact ⟨hlt, by simpa using hassign⟩
      · rw [mem_chunkIdx]
        refine ⟨j % cs, Nat.mod_lt j hcs, ?_⟩
        rw [Nat.mul_comm]
        exact (Nat.div_add_mod j cs).symm
    · rw [if_neg hlt] at hassign
      right
      have hq : (L / cs) * cs ≤ j := by
        have : L / cs ≤ j / cs := Nat.le_of_not_lt hlt
        calc (L / cs) * cs ≤ (j / cs) * cs := Nat.mul_le_mul_right cs this
          _ ≤ j := Nat.div_mul_le_self j cs
      have hrem : L % cs > 0 := by
        by_contra hr
        push_neg at hr
        have hr0 : L % cs = 0 := Nat.le_zero.mp hr
        have hLm : cs * (L / cs) + L % cs = L := Nat.div_add_mod L cs
        have hcm : (L / cs) * cs = cs * (L / cs) := Nat.mul_comm _ _
        omega
      rw [if_pos ⟨hassign.symm, hrem⟩, List.mem_range'_1]
      omega

theorem workerIdxs_nodup {L cs W t : Nat} (hcs : 1 ≤ cs) : (workerIdxs L cs W t).Nodup := by
  unfold workerIdxs
  rw [List.nodup_append]
  refine ⟨?_, ?_, ?_⟩
  · rw [List.nodup_flatMap]
    refine ⟨fun c _ => chunkIdx_nodup cs c, ?_⟩
    have hfil : (workerChunkIds (L / cs) W t).Nodup :=
      (List.nodup_range _).filter _
    exact hfil.imp (fun hab j hj1 hj2 =>
      hab (by rw [← chunkIdx_div hcs hj1, ← chunkIdx_div hcs hj2]))
  · split
    · exact List.nodup_range' ..
    · exact List.nodup_nil
  · intro x hx
    rw [List.mem_flatMap] at hx
    rcases hx with ⟨c, hc, hj⟩
    rw [workerChunkIds, List.mem_filter, List.mem_range] at hc
    rcases mem_chunkIdx.mp hj with ⟨k, hk, rfl⟩
    split
    · rw [List.mem_range'_1]
      have h2 : (c + 1) * cs ≤ (L / cs) * cs := Nat.mul_le_mul_right cs hc.1
      have h1 : c * cs + k < (c + 1) * cs := by rw [Nat.succ_mul]; omega
      omega
    · exact List.not_mem_nil _

theorem assignW_lt {L cs W j : Nat} (hW : 1 ≤ W) : assignW L cs W j < W := by
  unfold assignW
  split
  · exact Nat.mod_lt _ hW
  · exact hW

/-- The per-round index sets of the `W` workers partition `{0, ..., L-1}`:
their concatenation is a permutation of `range L`. -/
theorem partition_perm (L cs W : Nat) (hcs : 1 ≤ cs) (hW : 1 ≤ W) :
    ((List.range W).flatMap (fun t => workerIdxs L cs W t)).Perm (List.range L) := by
  have hnd : ((List.range W).flatMap (fun t => workerIdxs L cs W t)).Nodup := by
    rw [List.nodup_flatMap]
    refine ⟨fun t _ => workerIdxs_nodup hcs, ?_⟩
    apply List.Pairwise.imp_of_mem ?_ (List.nodup_range W)
    intro t1 t2 h1 h2 hne j hj1 hj2
    rw [List.mem_range] at h1 h2
    have e1 := ((mem_workerIdxs hcs hW h1 j).mp hj1).2
    have e2 := ((mem_workerIdxs hcs hW h2 j).mp hj2).2
    exact hne (e1 ▸ e2 ▸ rfl)
  refine (List.perm_ext_iff_of_nodup hnd (List.nodup_range L)).mpr ?_
  intro j
  rw [List.mem_flatMap, List.mem_range]
  constructor
  · rintro ⟨t, ht, hj⟩
    rw [List.mem_range] at ht
    exact ((mem_workerIdxs hcs hW ht j).mp hj).1
  · intro hj
    refine ⟨assignW L cs W j, List.mem_range.mpr (assignW_lt hW), ?_⟩
    exact (mem_workerIdxs hcs hW (assignW_lt hW) j).mpr ⟨hj, rfl⟩

theorem map_getD_range (F : List Nat) :
    (List.range F.length).map (fun j => F.getD j 0) = F := by
  induction F with
  | nil => rfl
  | cons a F ih =>
    have hcomp : ((fun j => (a :: F).getD j 0) ∘ (· + 1)) = (fun j => F.getD j 0) := by
      funext x
      simp
    rw [List.length_cons, List.range_succ_eq_map, List.map_cons, List.map_map, hcomp, ih]
    simp

/-- The frontier nodes scanned by the workers of one round, concatenated in
worker order, are a permutation of the frontier. -/
theorem workerNodes_perm (F : List Nat) (cs W : Nat) (hcs : 1 ≤ cs) (hW : 1 ≤ W) :
    ((List.range W).flatMap
        (fun t => (workerIdxs F.length cs W t).map (fun j => F.getD j 0))).Perm F := by
  have h1 : ((List.range W).flatMap
      (fun t => (workerIdxs F.length cs W t).map (fun j => F.getD j 0))) =
      (((List.range W).flatMap (fun t => workerIdxs F.length cs W t)).map
        (fun j => F.getD j 0)) := by
    rw [List.map_flatMap]
  rw [h1]
  have h2 := (partition_perm F.length cs W hcs hW).map (fun j => F.getD j 0)
  rw [map_getD_range] at h2
  exact h2

/-!
## The parallel engine (`parallel_bfs` in `src/bfs_thread.cpp`)

Each round: the workers scan their index slices of the current frontier
(counting value matches into their private counters and expanding unvisited
neighbours into their private buffers `partial_new_frontier[t]`), then the
orchestrator merges all buffers through the `unordered_set` (clearing the
buffers), installs the sorted merged set as the new frontier, and loops until
the frontier is empty.  The workers of a round are sequentialised in worker
order; all per-round results are proved independent of that order.
-/

/-- Number of value matches in a node list (each occurrence counted). -/
def matchLen (g : Graph) (sv : Int) (ns : List Nat) : Nat :=
  ns.countP (fun u => decide (g.valueOf u = sv))

/-- `f_node` of the worker body: count a match, expand unvisited neighbours
into the worker's buffer (marking them visited). -/
def visitNode (g : Graph) (sv : Int) (st : Finset Nat × List Nat × Nat) (curr : Nat) :
    Finset Nat × List Nat × Nat :=
  let occ := if g.valueOf curr = sv then st.2.2 + 1 else st.2.2
  let p := pushNeighbors g st.1 st.2.1 curr
  (p.1, p.2, occ)

/-- A worker scanning the node list `ns` (its slice of the frontier). -/
def visitList (g : Graph) (sv : Int) (ns : List Nat) (st : Finset Nat × List Nat × Nat) :
    Finset Nat × List Nat × Nat :=
  ns.foldl (visitNode g sv) st

theorem visitList_spec (g : Graph) (sv : Int) (ns : List Nat) :
    ∀ (V : Finset Nat) (buf : List Nat) (occ : Nat),
    (visitList g sv ns (V, buf, occ)).1 = V ∪ adjFin g ns.toFinset ∧
    (visitList g sv ns (V, buf, occ)).2.1.toFinset =
      buf.toFinset ∪ (adjFin g ns.toFinset \ V) ∧
    (visitList g sv ns (V, buf, occ)).2.2 = occ + matchLen g sv ns := by
  induction ns with
  | nil =>
    intro V buf occ
    refine ⟨?_, ?_, ?_⟩ <;> simp [visitList, adjFin, matchLen]
  | cons a ns ih =>
    intro V buf occ
    have hstep : visitList g sv (a :: ns) (V, buf, occ) =
        visitList g sv ns (visitNode g sv (V, buf, occ) a) := rfl
    have hnode : visitNode g sv (V, buf, occ) a =
        ((pushNeighbors g V buf a).1, (pushNeighbors g V buf a).2,
          if g.valueOf a = sv then occ + 1 else occ) := rfl
    rw [hstep, hnode]
    obtain ⟨h1, h2, h3⟩ := ih (pushNeighbors g V buf a).1 (pushNeighbors g V buf a).2
      (if g.valueOf a = sv then occ + 1 else occ)
    refine ⟨?_, ?_, ?_⟩
    · rw [h1, pushNeighbors_fst, List.toFinset_cons, adjFin_insert, Finset.union_assoc]
    · rw [h2, pushNeighbors_snd_toFinset, pushNeighbors_fst, List.toFinset_cons,
        adjFin_insert]
      ext x
      simp only [Finset.mem_union, Finset.mem_sdiff]
      tauto
    · rw [h3, matchLen, matchLen, List.countP_cons]
      by_cases hm : g.valueOf a = sv
      · simp [hm]
        omega
      · simp [hm]

/-- The round body run by the `W` workers in worker order: each worker starts
with an empty private buffer (`partial_new_frontier[t]`, cleared by the
previous merge) and a zero per-round counter; the visited set is shared. -/
def runWorkers (g : Graph) (sv : Int) (slices : List (List Nat)) (bufs0 : List (List Nat))
    (V : Finset Nat) (occ0 : Nat) : List (List Nat) × Finset Nat × Nat :=
  slices.foldl
    (fun acc ns =>
      let r := visitList g sv ns (acc.2.1, [], 0)
      (acc.1 ++ [r.2.1], r.1, acc.2.2 + r.2.2))
    (bufs0, V, occ0)

theorem runWorkers_spec (g : Graph) (sv : Int) (slices : List (List Nat)) :
    ∀ (bufs0 : List (List Nat)) (V : Finset Nat) (occ0 : Nat),
    (runWorkers g sv slices bufs0 V occ0).2.1 = V ∪ adjFin g slices.flatten.toFinset ∧
    (runWorkers g sv slices bufs0 V occ0).1.flatten.toFinset =
      bufs0.flatten.toFinset ∪ (adjFin g slices.flatten.toFinset \ V) ∧
    (runWorkers g sv slices bufs0 V occ0).2.2 = occ0 + matchLen g sv slices.flatten := by
  induction slices with
  | nil =>
    intro bufs0 V occ0
    refine ⟨?_, ?_, ?_⟩ <;> simp [runWorkers, adjFin, matchLen]
  | cons ns slices ih =>
    intro bufs0 V occ0
    obtain ⟨w1, w2, w3⟩ := visitList_spec g sv ns V [] 0
    have hstep : runWorkers g sv (ns :: slices) bufs0 V occ0 =
        runWorkers g sv slices (bufs0 ++ [(visitList g sv ns (V, [], 0)).2.1])
          (visitList g sv ns (V, [], 0)).1 (occ0 + (visitList g sv ns (V, [], 0)).2.2) := rfl
    rw [hstep]
    obtain ⟨h1, h2, h3⟩ := ih (bufs0 ++ [(visitList g sv ns (V, [], 0)).2.1])
      (visitList g sv ns (V, [], 0)).1 (occ0 + (visitList g sv ns (V, [], 0)).2.2)
    have hflat : (ns :: slices).flatten.toFinset =
        ns.toFinset ∪ slices.flatten.toFinset := by
      simp [List.flatten_cons]
    refine ⟨?_, ?_, ?_⟩
    · rw [h1, w1, hflat, adjFin_union, Finset.union_assoc]
    · rw [h2, w1, hflat, adjFin_union]
      have hb : (bufs0 ++ [(visitList g sv ns (V, [], 0)).2.1]).flatten.toFinset =
          bufs0.flatten.toFinset ∪ (visitList g sv ns (V, [], 0)).2.1.toFinset := by
        simp
      rw [hb, w2]
      ext x
      simp only [Finset.mem_union, Finset.mem_sdiff, List.toFinset_nil,
        Finset.not_mem_empty, false_or]
      tauto
    · rw [h3, w3]
      simp only [matchLen, List.flatten_cons, List.countP_append]
      omega

/-- Frontier nodes of worker `t`'s slice, in scan order
(`curr_frontier[j]` for `j` in `workerIdxs`). -/
def sliceNodes (F : List Nat) (cs W t : Nat) : List Nat :=
  (workerIdxs F.length cs W t).map (fun j => F.getD j 0)

/-- Merge phase of the orchestrator: insert every worker buffer into the
merging set and clear it, then materialise the set sorted
(`curr_frontier.assign(set.begin(), set.end()); sort(...)` — the
`unordered_set` iteration order is unspecified, the subsequent `sort`
normalises it, so the result is the sorted list of the union). -/
def mergeClear (bufs : List (List Nat)) : List Nat × List (List Nat) :=
  ((bufs.foldl (fun (s : Finset Nat) (b : List Nat) => s ∪ b.toFinset)
      (∅ : Finset Nat)).sort (· ≤ ·),
    bufs.map (fun _ => []))

theorem foldl_union_toFinset (bufs : List (List Nat)) :
    ∀ s0 : Finset Nat, bufs.foldl (fun (s : Finset Nat) (b : List Nat) => s ∪ b.toFinset) s0 =
      s0 ∪ bufs.flatten.toFinset := by
  induction bufs with
  | nil => intro s0; simp
  | cons b bufs ih =>
    intro s0
    rw [List.foldl_cons, ih (s0 ∪ b.toFinset)]
    simp [Finset.union_assoc]

theorem perm_toFinset {l₁ l₂ : List Nat} (h : l₁.Perm l₂) : l₁.toFinset = l₂.toFinset := by
  ext x
  simp only [List.mem_toFinset]
  exact h.mem_iff

theorem mergeClear_fst (bufs : List (List Nat)) :
    (mergeClear bufs).1 = (bufs.flatten.toFinset).sort (· ≤ ·) := by
  rw [mergeClear, foldl_union_toFinset]
  simp

/-- One synchronisation round of `parallel_bfs`:
workers scan → barrier → merge + clear + sort. -/
def chunkedRound (g : Graph) (sv : Int) (W cs : Nat) (st : List Nat × Finset Nat × Nat) :
    List Nat × Finset Nat × Nat :=
  let r := runWorkers g sv ((List.range W).map (fun t => sliceNodes st.1 cs W t)) [] st.2.1 0
  let m := mergeClear r.1
  (m.1, r.2.1, st.2.2 + r.2.2)

theorem chunkedRound_spec (g : Graph) (sv : Int) (W cs : Nat) (hcs : 1 ≤ cs) (hW : 1 ≤ W)
    (F : List Nat) (V : Finset Nat) (occ : Nat) :
    (chunkedRound g sv W cs (F, V, occ)).1 =
      (adjFin g F.toFinset \ V).sort (· ≤ ·) ∧
    (chunkedRound g sv W cs (F, V, occ)).2.1 = V ∪ adjFin g F.toFinset ∧
    (chunkedRound g sv W cs (F, V, occ)).2.2 = occ + matchLen g sv F := by
  have hperm : (((List.range W).map (fun t => sliceNodes F cs W t)).flatten).Perm F := by
    have := workerNodes_perm F cs W hcs hW
    rw [← List.flatMap_def] at *
    exact this
  have hset : ((List.range W).map (fun t => sliceNodes F cs W t)).flatten.toFinset =
      F.toFinset := perm_toFinset hperm
  have hcnt : matchLen g sv (((List.range W).map (fun t => sliceNodes F cs W t)).flatten) =
      matchLen g sv F := hperm.countP_eq _
  obtain ⟨h1, h2, h3⟩ := runWorkers_spec g sv
    ((List.range W).map (fun t => sliceNodes F cs W t)) [] V 0
  refine ⟨?_, ?_, ?_⟩
  · show (mergeClear (runWorkers g sv _ [] V 0).1).1 = _
    rw [mergeClear_fst, h2, hset]
    simp
  · show (runWorkers g sv _ [] V 0).2.1 = _
    rw [h1, hset]
  · show occ + (runWorkers g sv _ [] V 0).2.2 = _
    rw [h3, hcnt]
    omega

/-- The orchestrator loop (`while (!curr_frontier.empty())`), with an explicit
round budget. -/
def parLoop (g : Graph) (sv : Int) (W cs : Nat) : Nat → List Nat × Finset Nat × Nat → Nat
  | 0, st => st.2.2
  | fuel+1, st =>
      if st.1 = [] then st.2.2 else parLoop g sv W cs fuel (chunkedRound g sv W cs st)

/-- `parallel_bfs(g, start_node, search_value, n_workers)`: seed the frontier
with the start node, mark it visited, run the rounds (`g.n_nodes` rounds are
proved sufficient), return the reduced occurrence count. -/
def parallel_bfs (g : Graph) (start_node : Nat) (search_value : Int)
    (n_workers : Nat) : Nat :=
  parLoop g search_value n_workers CHUNK_SIZE g.n_nodes
    ([start_node], {start_node}, 0)

/-!
## Abstract level-synchronous run and its invariant

`levelRun` is the per-round set-level recurrence realised by the engine:
next frontier = unvisited successors of the frontier; visited grows by all
successors; the count grows by the frontier's matches.
-/

def levelRun (g : Graph) (sv : Int) : Nat → Finset Nat → Finset Nat → Nat → Nat
  | 0, _, _, occ => occ
  | fuel+1, S, V, occ =>
      if S = ∅ then occ
      else levelRun g sv fuel (adjFin g S \ V) (V ∪ adjFin g S) (occ + matchFin g sv S)

theorem levelRun_empty (g : Graph) (sv : Int) (fuel : Nat) (V : Finset Nat) (occ : Nat) :
    levelRun g sv fuel ∅ V occ = occ := by
  cases fuel with
  | zero => rfl
  | succ fuel => simp [levelRun]

theorem matchLen_eq_matchFin (g : Graph) (sv : Int) {ns : List Nat} (h : ns.Nodup) :
    matchLen g sv ns = matchFin g sv ns.toFinset := by
  rw [matchLen, List.countP_eq_length_filter,
    ← List.toFinset_card_of_nodup (h.filter _), List.toFinset_filter]
  unfold matchFin
  congr 1
  apply Finset.filter_congr
  intro x _
  simp

/-- The chunked engine loop computes the abstract level-synchronous run. -/
theorem parLoop_eq_levelRun (g : Graph) (sv : Int) (W cs : Nat) (hcs : 1 ≤ cs)
    (hW : 1 ≤ W) :
    ∀ (fuel : Nat) (F : List Nat) (V : Finset Nat) (occ : Nat), F.Nodup →
      parLoop g sv W cs fuel (F, V, occ) = levelRun g sv fuel F.toFinset V occ := by
  intro fuel
  induction fuel with
  | zero => intro F V occ _; rfl
  | succ fuel ih =>
    intro F V occ hnd
    by_cases hF : F = []
    · subst hF
      simp [parLoop, levelRun]
    · have hFT : F.toFinset ≠ ∅ := fun hc => hF ((List.toFinset_eq_empty_iff F).mp hc)
      rw [parLoop, if_neg hF, levelRun, if_neg hFT]
      obtain ⟨r1, r2, r3⟩ := chunkedRound_spec g sv W cs hcs hW F V occ
      have hst : chunkedRound g sv W cs (F, V, occ) =
          ((adjFin g F.toFinset \ V).sort (· ≤ ·), V ∪ adjFin g F.toFinset,
            occ + matchLen g sv F) := by
        rcases hre : chunkedRound g sv W cs (F, V, occ) with ⟨a, b, c⟩
        rw [hre] at r1 r2 r3
        simp only at r1 r2 r3
        rw [r1, r2, r3]
      rw [hst, ih _ _ _ (Finset.sort_nodup _ _), Finset.sort_toFinset,
        matchLen_eq_matchFin g sv hnd]

/-- Invariant of the abstract run: the frontier is visited, visited nodes are
in-range and reachable, processed (visited, off-frontier) nodes are
adjacency-closed, and `occ` counts the processed matches. -/
def LevelInv (g : Graph) (s : Nat) (sv : Int) (S V : Finset Nat) (occ : Nat) : Prop :=
  S ⊆ V ∧ V ⊆ Finset.range g.n_nodes ∧ s ∈ V ∧ (∀ u ∈ V, Reachable g s u) ∧
  (∀ u ∈ V, u ∉ S → ∀ v ∈ g.adjOf u, v ∈ V) ∧ occ = matchFin g sv (V \ S)

theorem matchFin_union_of_disjoint (g : Graph) (sv : Int) {A B : Finset Nat}
    (h : Disjoint A B) :
    matchFin g sv (A ∪ B) = matchFin g sv A + matchFin g sv B := by
  unfold matchFin
  rw [Finset.filter_union, Finset.card_union_of_disjoint]
  exact Finset.disjoint_filter_filter h

theorem levelInv_done {g : Graph} (hg : WellFormed g) {s : Nat} (hs : s < g.n_nodes)
    {sv : Int} {V : Finset Nat} {occ : Nat} (hinv : LevelInv g s sv ∅ V occ) :
    occ = matchFin g sv (reachFin g s) := by
  obtain ⟨-, -, hsV, hreach, hclosed, hocc⟩ := hinv
  have hv : V = reachFin g s :=
    eq_reachFin_of_closed hg hs hsV hreach
      (fun u hu v hv => hclosed u hu (Finset.not_mem_empty u) v hv)
  rw [hocc, Finset.sdiff_empty, hv]

theorem levelInv_step {g : Graph} (hg : WellFormed g) {s : Nat} {sv : Int}
    {S V : Finset Nat} {occ : Nat} (hinv : LevelInv g s sv S V occ) :
    LevelInv g s sv (adjFin g S \ V) (V ∪ adjFin g S) (occ + matchFin g sv S) := by
  obtain ⟨hSV, hVr, hsV, hreach, hclosed, hocc⟩ := hinv
  have hadjr : adjFin g S ⊆ Finset.range g.n_nodes := by
    intro x hx
    rcases mem_adjFin.mp hx with ⟨u, hu, hadj⟩
    exact Finset.mem_range.mpr
      (hg u (Finset.mem_range.mp (hVr (hSV hu))) x hadj)
  refine ⟨?_, ?_, ?_, ?_, ?_, ?_⟩
  · intro x hx
    exact Finset.mem_union_right _ (Finset.mem_sdiff.mp hx).1
  · exact Finset.union_subset hVr hadjr
  · exact Finset.mem_union_left _ hsV
  · intro u hu
    rcases Finset.mem_union.mp hu with h | h
    · exact hreach u h
    · rcases mem_adjFin.mp h with ⟨w, hw, hadj⟩
      exact Reachable.step w u (hreach w (hSV hw)) hadj
  · intro u hu hnS v hv
    rcases Finset.mem_union.mp hu with h | h
    · by_cases huS : u ∈ S
      · exact Finset.mem_union_right _ (mem_adjFin.mpr ⟨u, huS, hv⟩)
      · exact Finset.mem_union_left _ (hclosed u h huS v hv)
    · by_cases huV : u ∈ V
      · by_cases huS : u ∈ S
        · exact Finset.mem_union_right _ (mem_adjFin.mpr ⟨u, huS, hv⟩)
        · exact Finset.mem_union_left _ (hclosed u huV huS v hv)
      · exact absurd (Finset.mem_sdiff.mpr ⟨h, huV⟩) hnS
  · have hkey : (V ∪ adjFin g S) \ (adjFin g S \ V) = V := by
      ext x
      simp only [Finset.mem_sdiff, Finset.mem_union]
      tauto
    rw [hkey]
    have hsplit : V = (V \ S) ∪ S := by
      ext x
      simp only [Finset.mem_union, Finset.mem_sdiff]
      constructor
      · intro hx
        by_cases hxS : x ∈ S
        · exact Or.inr hxS
        · exact Or.inl ⟨hx, hxS⟩
      · rintro (⟨hx, -⟩ | hx)
        · exact hx
        · exact hSV hx
    have hdisj : Disjoint (V \ S) S := Finset.sdiff_disjoint
    calc occ + matchFin g sv S
        = matchFin g sv (V \ S) + matchFin g sv S := by rw [hocc]
      _ = matchFin g sv ((V \ S) ∪ S) := (matchFin_union_of_disjoint g sv hdisj).symm
      _ = matchFin g sv V := by rw [← hsplit]

/-- With one round of budget per still-unvisited node (plus one), the abstract
run returns the match count of the reachable set. -/
theorem levelRun_correct {g : Graph} (hg : WellFormed g) {s : Nat}
    (hs : s < g.n_nodes) (sv : Int) :
    ∀ (fuel : Nat) (S V : Finset Nat) (occ : Nat), LevelInv g s sv S V occ →
      (Finset.range g.n_nodes \ V).card < fuel →
      levelRun g sv fuel S V occ = matchFin g sv (reachFin g s) := by
  intro fuel
  induction fuel with
  | zero => intro S V occ _ hfuel; omega
  | succ fuel ih =>
    intro S V occ hinv hfuel
    by_cases hS : S = ∅
    · subst hS
      rw [levelRun_empty]
      exact levelInv_done hg hs hinv
    · rw [levelRun, if_neg hS]
      have hinv' := levelInv_step hg hinv
      by_cases hS' : adjFin g S \ V = ∅
      · rw [hS', levelRun_empty]
        rw [hS'] at hinv'
        exact levelInv_done hg hs hinv'
      · apply ih _ _ _ hinv'
        have hVV' : V ⊂ V ∪ adjFin g S := by
          rcases Finset.nonempty_iff_ne_empty.mpr hS' with ⟨x, hx⟩
          rcases Finset.mem_sdiff.mp hx with ⟨hx1, hx2⟩
          exact Finset.ssubset_iff_of_subset Finset.subset_union_left
            |>.mpr ⟨x, Finset.mem_union_right _ hx1, hx2⟩
        have hV'r : V ∪ adjFin g S ⊆ Finset.range g.n_nodes := hinv'.2.1
        have hcard : (Finset.range g.n_nodes \ (V ∪ adjFin g S)).card <
            (Finset.range g.n_nodes \ V).card := by
          apply Finset.card_lt_card
          rcases Finset.exists_of_ssubset hVV' with ⟨x, hx1, hx2⟩
          refine ⟨Finset.sdiff_subset_sdiff le_rfl hVV'.1, ?_⟩
          intro hc
          have hx3 : x ∈ Finset.range g.n_nodes \ V :=
            Finset.mem_sdiff.mpr ⟨hV'r hx1, hx2⟩
          exact (Finset.mem_sdiff.mp (hc hx3)).2 hx1
        omega

theorem levelInv_init {g : Graph} {s : Nat} (hs : s < g.n_nodes) (sv : Int) :
    LevelInv g s sv {s} {s} 0 := by
  refine ⟨le_refl _, ?_, Finset.mem_singleton_self s, ?_, ?_, ?_⟩
  · simpa using Finset.mem_range.mpr hs
  · intro u hu
    rw [Finset.mem_singleton] at hu
    rw [hu]
    exact Reachable.refl
  · intro u hu hnS
    exact absurd hu hnS
  · simp [matchFin]

/-- The chunked parallel engine, with any worker count `W ≥ 1` and chunk size
`cs ≥ 1` and round budget `n_nodes`, returns the reachable match count. -/
theorem parLoop_correct {g : Graph} (hg : WellFormed g) {s : Nat} (hs : s < g.n_nodes)
    (sv : Int) {W cs : Nat} (hW : 1 ≤ W) (hcs : 1 ≤ cs) :
    parLoop g sv W cs g.n_nodes ([s], {s}, 0) = matchFin g sv (reachFin g s) := by
  have hsing : ([s] : List Nat).toFinset = {s} := by simp
  rw [parLoop_eq_levelRun g sv W cs hcs hW g.n_nodes [s] {s} 0 (List.nodup_singleton s),
    hsing]
  apply levelRun_correct hg hs sv _ _ _ _ (levelInv_init hs sv)
  have hsub : ({s} : Finset Nat) ⊆ Finset.range g.n_nodes := by
    simpa using Finset.mem_range.mpr hs
  rw [Finset.card_sdiff hsub]
  simp only [Finset.card_range, Finset.card_singleton]
  omega

/-!
## Static partitioning variant (`__parallel_bfs_static` in `src/bfs_thread.cpp`)

Per round, a worker with `thread_no < curr_size` takes the contiguous range
`[thread_no*delta, stop)` with `delta = (n_workers < curr_size) ? curr_size/n_workers : 1`,
`stop = (thread_no == n_workers-1) ? curr_size : (thread_no+1)*delta`, bumped by
one when empty (`if (start == stop) stop++;` — shown unreachable under the
guard).  The merge phase is identical except that the new frontier is **not**
sorted; the `unordered_set` iteration order is unspecified and we fix the
first-insertion order (`dedup` of the concatenation) — every per-round result
is proved to depend only on the frontier's underlying set, so this choice is
immaterial.
-/

/-- Worker `t`'s index range under the static policy. -/
def staticIdxs (L W t : Nat) : List Nat :=
  if t < L then
    let delta := if W < L then L / W else 1
    let start := t * delta
    let stop := if t = W - 1 then L else (t + 1) * delta
    let stop2 := if start = stop then stop + 1 else stop
    List.range' start (stop2 - start)
  else []

/-- The worker an index is assigned to under the static policy. -/
def assignS (L W j : Nat) : Nat :=
  if W < L then min (j / (L / W)) (W - 1) else j

theorem mem_staticIdxs {L W t : Nat} (hW : 1 ≤ W) (ht : t < W) (j : Nat) :
    j ∈ staticIdxs L W t ↔ j < L ∧ assignS L W j = t := by
  unfold staticIdxs assignS
  by_cases hWL : W < L
  · -- delta = L / W ≥ 1
    have hd1 : 1 ≤ L / W := (Nat.one_le_div_iff hW).mpr (Nat.le_of_lt hWL)
    have hdpos : 0 < L / W := hd1
    have htL : t < L := Nat.lt_trans ht hWL
    rw [if_pos htL]
    simp only [if_pos hWL]
    by_cases hlast : t = W - 1
    · -- last worker takes [(W-1)*d, L)
      have hstart : (W - 1) * (L / W) < L := by
        have h5 : L / W * W ≤ L := Nat.div_mul_le_self L W
        have h7 : W * (L / W) = L / W * W := Nat.mul_comm _ _
        have h2 : (W - 1) * (L / W) + L / W = W * (L / W) := by
          have h8 : W - 1 + 1 = W := Nat.succ_pred_eq_of_pos hW
          calc (W - 1) * (L / W) + L / W = (W - 1 + 1) * (L / W) := by ring
            _ = W * (L / W) := by rw [h8]
        omega
      rw [if_pos hlast, hlast]
      have hne : (W - 1) * (L / W) ≠ L := Nat.ne_of_lt hstart
      rw [if_neg hne, List.mem_range'_1]
      have hiff : (W - 1) * (L / W) ≤ j ↔ W - 1 ≤ j / (L / W) :=
        (Nat.le_div_iff_mul_le hdpos).symm
      constructor
      · rintro ⟨h1, h2⟩
        have h3 : (W - 1) * (L / W) ≤ j := h1
        have h4 : W - 1 ≤ j / (L / W) := hiff.mp h3
        exact ⟨by omega, by omega⟩
      · rintro ⟨h1, h2⟩
        have h4 : W - 1 ≤ j / (L / W) := by omega
        have h3 : (W - 1) * (L / W) ≤ j := hiff.mpr h4
        exact ⟨h3, by omega⟩
    · -- middle worker takes [t*d, (t+1)*d)
      have htW1 : t < W - 1 := by omega
      rw [if_neg hlast]
      have hsucc : (t + 1) * (L / W) = t * (L / W) + L / W := by ring
      have hne : t * (L / W) ≠ (t + 1) * (L / W) := by omega
      rw [if_neg hne, List.mem_range'_1]
      have hdiv : (t * (L / W) ≤ j ∧ j < t * (L / W) + ((t + 1) * (L / W) - t * (L / W)))
          ↔ j / (L / W) = t := by
        have hub : t * (L / W) + ((t + 1) * (L / W) - t * (L / W)) =
            (t + 1) * (L / W) := by omega
        rw [hub]
        constructor
        · rintro ⟨h1, h2⟩
          have hA : t ≤ j / (L / W) := (Nat.le_div_iff_mul_le hdpos).mpr h1
          have hB : j / (L / W) < t + 1 := Nat.div_lt_iff_lt_mul hdpos |>.mpr h2
          omega
        · intro h
          constructor
          · exact (Nat.le_div_iff_mul_le hdpos).mp (le_of_eq h.symm)
          · exact (Nat.div_lt_iff_lt_mul hdpos).mp (by omega)
      constructor
      · intro hmem
        have hjd : j / (L / W) = t := hdiv.mp hmem
        have hjL : j < L := by
          have h2 : j < (t + 1) * (L / W) := by
            have hmem2 := hdiv.mpr hjd
            omega
          have h3 : (t + 1) * (L / W) ≤ (W - 1) * (L / W) :=
            Nat.mul_le_mul_right _ (by omega)
          have h4 : (W - 1) * (L / W) < L := by
            have h5 : L / W * W ≤ L := Nat.div_mul_le_self L W
            have h5b : W * (L / W) = L / W * W := Nat.mul_comm _ _
            have h6 : (W - 1) * (L / W) + L / W = W * (L / W) := by
              have h7 : W - 1 + 1 = W := Nat.succ_pred_eq_of_pos hW
              calc (W - 1) * (L / W) + L / W = (W - 1 + 1) * (L / W) := by ring
                _ = W * (L / W) := by rw [h7]
            omega
          omega
        refine ⟨hjL, ?_⟩
        rw [hjd]
        omega
      · rintro ⟨hjL, hmin⟩
        apply hdiv.mpr
        omega
  · -- W ≥ L: delta = 1, active worker t (t < L) takes exactly [t]
    simp only [if_neg hWL]
    by_cases htL : t < L
    · rw [if_pos htL]
      have hstop : (if t = W - 1 then L else (t + 1) * 1) = t + 1 := by
        split
        · rename_i hlast
          -- t = W-1 and t < L ≤ W forces L = W = t+1
          omega
        · omega
      rw [hstop]
      have hne : t * 1 ≠ t + 1 := by omega
      rw [if_neg hne, List.mem_range'_1]
      constructor
      · rintro ⟨h1, h2⟩
        omega
      · rintro ⟨hjL, hj⟩
        omega
    · rw [if_neg htL]
      simp only [List.not_mem_nil, false_iff]
      rintro ⟨hjL, hj⟩
      omega

theorem assignS_lt {L W j : Nat} (hW : 1 ≤ W) (hj : j < L) : assignS L W j < W := by
  unfold assignS
  split
  · omega
  · omega

theorem staticIdxs_nodup (L W t : Nat) : (staticIdxs L W t).Nodup := by
  unfold staticIdxs
  split
  · exact List.nodup_range' ..
  · exact List.nodup_nil

/-- The static per-round index ranges also partition `{0, ..., L-1}`. -/
theorem static_partition_perm (L W : Nat) (hW : 1 ≤ W) :
    ((List.range W).flatMap (fun t => staticIdxs L W t)).Perm (List.range L) := by
  have hnd : ((List.range W).flatMap (fun t => staticIdxs L W t)).Nodup := by
    rw [List.nodup_flatMap]
    refine ⟨fun t _ => staticIdxs_nodup L W t, ?_⟩
    apply List.Pairwise.imp_of_mem ?_ (List.nodup_range W)
    intro t1 t2 h1 h2 hne j hj1 hj2
    rw [List.mem_range] at h1 h2
    have e1 := ((mem_staticIdxs hW h1 j).mp hj1).2
    have e2 := ((mem_staticIdxs hW h2 j).mp hj2).2
    exact hne (e1 ▸ e2 ▸ rfl)
  refine (List.perm_ext_iff_of_nodup hnd (List.nodup_range L)).mpr ?_
  intro j
  rw [List.mem_flatMap, List.mem_range]
  constructor
  · rintro ⟨t, ht, hj⟩
    rw [List.mem_range] at ht
    exact ((mem_staticIdxs hW ht j).mp hj).1
  · intro hj
    refine ⟨assignS L W j, List.mem_range.mpr (assignS_lt hW hj), ?_⟩
    exact (mem_staticIdxs hW (assignS_lt hW hj) j).mpr ⟨hj, rfl⟩

/-- Frontier nodes of worker `t`'s static slice. -/
def staticSliceNodes (F : List Nat) (W t : Nat) : List Nat :=
  (staticIdxs F.length W t).map (fun j => F.getD j 0)

theorem staticNodes_perm (F : List Nat) (W : Nat) (hW : 1 ≤ W) :
    ((List.range W).flatMap (fun t => staticSliceNodes F W t)).Perm F := by
  have h1 : ((List.range W).flatMap (fun t => staticSliceNodes F W t)) =
      (((List.range W).flatMap (fun t => staticIdxs F.length W t)).map
        (fun j => F.getD j 0)) := by
    simp [List.map_flatMap, staticSliceNodes]
  rw [h1]
  have h2 := (static_partition_perm F.length W hW).map (fun j => F.getD j 0)
  rw [map_getD_range] at h2
  exact h2

/-- Merge phase of the static engine: same set union and buffer clearing, but
the new frontier is not sorted (we fix first-insertion order for the
unspecified `unordered_set` iteration order). -/
def mergeClearStatic (bufs : List (List Nat)) : List Nat × List (List Nat) :=
  (bufs.flatten.dedup, bufs.map (fun _ => []))

/-- One round of `__parallel_bfs_static`. -/
def staticRound (g : Graph) (sv : Int) (W : Nat) (st : List Nat × Finset Nat × Nat) :
    List Nat × Finset Nat × Nat :=
  let r := runWorkers g sv ((List.range W).map (fun t => staticSliceNodes st.1 W t)) []
    st.2.1 0
  let m := mergeClearStatic r.1
  (m.1, r.2.1, st.2.2 + r.2.2)

theorem dedup_toFinset (l : List Nat) : l.dedup.toFinset = l.toFinset := by
  ext x
  simp [List.mem_dedup]

theorem staticRound_spec (g : Graph) (sv : Int) (W : Nat) (hW : 1 ≤ W)
    (F : List Nat) (V : Finset Nat) (occ : Nat) :
    (staticRound g sv W (F, V, occ)).1.toFinset = adjFin g F.toFinset \ V ∧
    (staticRound g sv W (F, V, occ)).1.Nodup ∧
    (staticRound g sv W (F, V, occ)).2.1 = V ∪ adjFin g F.toFinset ∧
    (staticRound g sv W (F, V, occ)).2.2 = occ + matchLen g sv F := by
  have hperm : (((List.range W).map (fun t => staticSliceNodes F W t)).flatten).Perm F := by
    have := staticNodes_perm F W hW
    rw [← List.flatMap_def] at *
    exact this
  have hset : ((List.range W).map (fun t => staticSliceNodes F W t)).flatten.toFinset =
      F.toFinset := perm_toFinset hperm
  have hcnt : matchLen g sv (((List.range W).map (fun t => staticSliceNodes F W t)).flatten) =
      matchLen g sv F := hperm.countP_eq _
  obtain ⟨h1, h2, h3⟩ := runWorkers_spec g sv
    ((List.range W).map (fun t => staticSliceNodes F W t)) [] V 0
  refine ⟨?_, ?_, ?_, ?_⟩
  · show (mergeClearStatic (runWorkers g sv _ [] V 0).1).1.toFinset = _
    rw [mergeClearStatic, dedup_toFinset, h2, hset]
    simp
  · exact List.nodup_dedup _
  · show (runWorkers g sv _ [] V 0).2.1 = _
    rw [h1, hset]
  · show occ + (runWorkers g sv _ [] V 0).2.2 = _
    rw [h3, hcnt]
    omega

/-- The orchestrator loop of the static engine. -/
def statLoop (g : Graph) (sv : Int) (W : Nat) : Nat → List Nat × Finset Nat × Nat → Nat
  | 0, st => st.2.2
  | fuel+1, st =>
      if st.1 = [] then st.2.2 else statLoop g sv W fuel (staticRound g sv W st)

/-- `__parallel_bfs_static(g, start_node, search_value, n_workers)`. -/
def parallel_bfs_static (g : Graph) (start_node : Nat) (search_value : Int)
    (n_workers : Nat) : Nat :=
  statLoop g search_value n_workers g.n_nodes ([start_node], {start_node}, 0)

theorem statLoop_eq_levelRun (g : Graph) (sv : Int) (W : Nat) (hW : 1 ≤ W) :
    ∀ (fuel : Nat) (F : List Nat) (V : Finset Nat) (occ : Nat), F.Nodup →
      statLoop g sv W fuel (F, V, occ) = levelRun g sv fuel F.toFinset V occ := by
  intro fuel
  induction fuel with
  | zero => intro F V occ _; rfl
  | succ fuel ih =>
    intro F V occ hnd
    by_cases hF : F = []
    · subst hF
      simp [statLoop, levelRun]
    · have hFT : F.toFinset ≠ ∅ := fun hc => hF ((List.toFinset_eq_empty_iff F).mp hc)
      rw [statLoop, if_neg hF, levelRun, if_neg hFT]
      obtain ⟨r1, rn, r2, r3⟩ := staticRound_spec g sv W hW F V occ
      rcases hre : staticRound g sv W (F, V, occ) with ⟨a, b, c⟩
      rw [hre] at r1 rn r2 r3
      simp only at r1 rn r2 r3
      rw [ih a b c rn, r1, r2, r3, matchLen_eq_matchFin g sv hnd]

theorem statLoop_correct {g : Graph} (hg : WellFormed g) {s : Nat} (hs : s < g.n_nodes)
    (sv : Int) {W : Nat} (hW : 1 ≤ W) :
    statLoop g sv W g.n_nodes ([s], {s}, 0) = matchFin g sv (reachFin g s) := by
  have hsing : ([s] : List Nat).toFinset = {s} := by simp
  rw [statLoop_eq_levelRun g sv W hW g.n_nodes [s] {s} 0 (List.nodup_singleton s), hsing]
  apply levelRun_correct hg hs sv _ _ _ _ (levelInv_init hs sv)
  have hsub : ({s} : Finset Nat) ⊆ Finset.range g.n_nodes := by
    simpa using Finset.mem_range.mpr hs
  rw [Finset.card_sdiff hsub]
  simp only [Finset.card_range, Finset.card_singleton]
  omega

/-!
## Round-by-round state sequence of `parallel_bfs`

`parState k` is the orchestrator state (frontier, visited, accumulated count)
at the start of round `k`; once the frontier empties the state freezes (the
loop has exited).
-/

def parStep (g : Graph) (sv : Int) (W cs : Nat) (st : List Nat × Finset Nat × Nat) :
    List Nat × Finset Nat × Nat :=
  if st.1 = [] then st else chunkedRound g sv W cs st

def parState (g : Graph) (sv : Int) (W cs s : Nat) (k : Nat) :
    List Nat × Finset Nat × Nat :=
  (parStep g sv W cs)^[k] ([s], {s}, 0)

/-- Frontier at the start of round `k` (`curr_frontier`). -/
def frontierAt (g : Graph) (sv : Int) (W cs s k : Nat) : List Nat :=
  (parState g sv W cs s k).1

/-- Visited marker set at the start of round `k` (`visited`). -/
def visitedAt (g : Graph) (sv : Int) (W cs s k : Nat) : Finset Nat :=
  (parState g sv W cs s k).2.1

theorem parState_succ (g : Graph) (sv : Int) (W cs s k : Nat) :
    parState g sv W cs s (k+1) = parStep g sv W cs (parState g sv W cs s k) :=
  Function.iterate_succ_apply' _ k _

/-- Invariant carried by every round state. -/
def ParInv (g : Graph) (s : Nat) (sv : Int) (st : List Nat × Finset Nat × Nat) : Prop :=
  st.1.Nodup ∧ LevelInv g s sv st.1.toFinset st.2.1 st.2.2

theorem parState_inv {g : Graph} (hg : WellFormed g) {s : Nat} (hs : s < g.n_nodes)
    (sv : Int) {W cs : Nat} (hW : 1 ≤ W) (hcs : 1 ≤ cs) :
    ∀ k, ParInv g s sv (parState g sv W cs s k) := by
  intro k
  induction k with
  | zero =>
    refine ⟨List.nodup_singleton s, ?_⟩
    have hsing : ([s] : List Nat).toFinset = {s} := by simp
    show LevelInv g s sv ([s] : List Nat).toFinset {s} 0
    rw [hsing]
    exact levelInv_init hs sv
  | succ k ih =>
    rw [parState_succ]
    rcases hst : parState g sv W cs s k with ⟨F, V, occ⟩
    rw [hst] at ih
    obtain ⟨hnd, hinv⟩ := ih
    unfold parStep
    by_cases hF : F = []
    · subst hF
      rw [if_pos rfl]
      exact ⟨hnd, hinv⟩
    · simp only [hF, if_neg, ite_false]
      obtain ⟨r1, r2, r3⟩ := chunkedRound_spec g sv W cs hcs hW F V occ
      rcases hre : chunkedRound g sv W cs (F, V, occ) with ⟨a, b, c⟩
      rw [hre] at r1 r2 r3
      simp only at r1 r2 r3
      refine ⟨?_, ?_⟩
      · rw [r1]; exact Finset.sort_nodup _ _
      · show LevelInv g s sv a.toFinset b c
        rw [r1, Finset.sort_toFinset, r2, r3, matchLen_eq_matchFin g sv hnd]
        exact levelInv_step hg hinv

theorem visitedAt_mono (g : Graph) (sv : Int) (W cs s : Nat) (hW : 1 ≤ W) (hcs : 1 ≤ cs)
    (k : Nat) : visitedAt g sv W cs s k ⊆ visitedAt g sv W cs s (k+1) := by
  unfold visitedAt
  rw [parState_succ]
  rcases hst : parState g sv W cs s k with ⟨F, V, occ⟩
  unfold parStep
  by_cases hF : F = []
  · simp [hF]
  · simp only [hF, ite_false]
    obtain ⟨-, r2, -⟩ := chunkedRound_spec g sv W cs hcs hW F V occ
    rw [r2]
    exact Finset.subset_union_left

theorem frontierAt_subset_visited {g : Graph} (hg : WellFormed g) {s : Nat}
    (hs : s < g.n_nodes) (sv : Int) {W cs : Nat} (hW : 1 ≤ W) (hcs : 1 ≤ cs) (k : Nat) :
    ∀ u ∈ frontierAt g sv W cs s k, u ∈ visitedAt g sv W cs s k := by
  have h := (parState_inv hg hs sv hW hcs k).2.1
  intro u hu
  exact h (List.mem_toFinset.mpr hu)

theorem frontierAt_succ_disjoint (g : Graph) (sv : Int) (W cs s : Nat) (hW : 1 ≤ W)
    (hcs : 1 ≤ cs) (k : Nat) :
    ∀ u ∈ frontierAt g sv W cs s (k+1), u ∉ visitedAt g sv W cs s k := by
  unfold frontierAt visitedAt
  rw [parState_succ]
  rcases hst : parState g sv W cs s k with ⟨F, V, occ⟩
  unfold parStep
  by_cases hF : F = []
  · subst hF
    simp
  · simp only [hF, ite_false]
    obtain ⟨r1, -, -⟩ := chunkedRound_spec g sv W cs hcs hW F V occ
    intro u hu
    rw [r1, Finset.mem_sort] at hu
    exact (Finset.mem_sdiff.mp hu).2

theorem visitedAt_mono_le (g : Graph) (sv : Int) (W cs s : Nat) (hW : 1 ≤ W)
    (hcs : 1 ≤ cs) {i j : Nat} (hij : i ≤ j) :
    visitedAt g sv W cs s i ⊆ visitedAt g sv W cs s j := by
  induction j with
  | zero => cases Nat.le_zero.mp hij; exact subset_rfl
  | succ j ih =>
    rcases Nat.lt_or_ge i (j+1) with hlt | hge
    · exact (ih (Nat.lt_succ_iff.mp hlt)).trans (visitedAt_mono g sv W cs s hW hcs j)
    · have : i = j + 1 := Nat.le_antisymm hij hge
      rw [this]

/-- Frontiers of distinct rounds are disjoint. -/
theorem frontierAt_pairwise_disjoint {g : Graph} (hg : WellFormed g) {s : Nat}
    (hs : s < g.n_nodes) (sv : Int) {W cs : Nat} (hW : 1 ≤ W) (hcs : 1 ≤ cs)
    {i j : Nat} (hij : i < j) :
    ∀ u ∈ frontierAt g sv W cs s i, u ∉ frontierAt g sv W cs s j := by
  intro u hui huj
  rcases Nat.exists_eq_add_of_lt hij with ⟨d, hd⟩
  have h1 : u ∈ visitedAt g sv W cs s i :=
    frontierAt_subset_visited hg hs sv hW hcs i u hui
  have h2 : u ∈ visitedAt g sv W cs s (i + d) :=
    visitedAt_mono_le g sv W cs s hW hcs (Nat.le_add_right i d) h1
  have h3 := frontierAt_succ_disjoint g sv W cs s hW hcs (i + d) u
  rw [← hd] at h3
  exact h3 huj h2

/-- Once the frontier is empty it stays empty (the loop has exited). -/
theorem frontierAt_empty_persists (g : Graph) (sv : Int) (W cs s : Nat) {k : Nat}
    (hk : frontierAt g sv W cs s k = []) :
    ∀ m, k ≤ m → frontierAt g sv W cs s m = [] ∧
      visitedAt g sv W cs s m = visitedAt g sv W cs s k := by
  intro m hm
  induction m with
  | zero => cases Nat.le_zero.mp hm; exact ⟨hk, rfl⟩
  | succ m ih =>
    rcases Nat.lt_or_ge k (m+1) with hlt | hge
    · obtain ⟨hF, hV⟩ := ih (Nat.lt_succ_iff.mp hlt)
      unfold frontierAt visitedAt at *
      rw [parState_succ]
      rcases hst : parState g sv W cs s m with ⟨F, V, occ⟩
      rw [hst] at hF hV
      simp only at hF hV
      subst hF
      unfold parStep
      rw [if_pos rfl]
      exact ⟨rfl, hV⟩
    · have : k = m + 1 := Nat.le_antisymm hm hge
      rw [this] at hk ⊢
      exact ⟨hk, rfl⟩

/-- A nonempty next frontier means at least one newly visited node. -/
theorem visitedAt_progress (g : Graph) (sv : Int) (W cs s : Nat) (hW : 1 ≤ W)
    (hcs : 1 ≤ cs) (k : Nat) (hne : frontierAt g sv W cs s (k+1) ≠ []) :
    visitedAt g sv W cs s k ⊂ visitedAt g sv W cs s (k+1) := by
  rcases List.exists_mem_of_ne_nil _ hne with ⟨x, hx⟩
  refine Finset.ssubset_iff_of_subset (visitedAt_mono g sv W cs s hW hcs k) |>.mpr ?_
  refine ⟨x, ?_, frontierAt_succ_disjoint g sv W cs s hW hcs k x hx⟩
  have h1 : x ∈ frontierAt g sv W cs s (k+1) := hx
  -- the new frontier is visited at round k+1
  unfold frontierAt visitedAt at *
  rw [parState_succ] at h1 ⊢
  rcases hst : parState g sv W cs s k with ⟨F, V, occ⟩
  rw [hst] at h1
  unfold parStep at h1 ⊢
  by_cases hF : F = []
  · subst hF
    rw [if_pos rfl] at h1
    exact absurd h1 (List.not_mem_nil x)
  · rw [if_neg hF] at h1 ⊢
    obtain ⟨r1, r2, -⟩ := chunkedRound_spec g sv W cs hcs hW F V occ
    rw [r1, Finset.mem_sort] at h1
    rw [r2]
    exact Finset.mem_union_right _ (Finset.mem_sdiff.mp h1).1

/-- After at most `n_nodes` rounds the frontier is empty. -/
theorem frontierAt_n_empty {g : Graph} (hg : WellFormed g) {s : Nat}
    (hs : s < g.n_nodes) (sv : Int) {W cs : Nat} (hW : 1 ≤ W) (hcs : 1 ≤ cs) :
    frontierAt g sv W cs s g.n_nodes = [] := by
  by_contra hne
  have hall : ∀ k ≤ g.n_nodes, frontierAt g sv W cs s k ≠ [] := by
    intro k hk hempty
    exact hne ((frontierAt_empty_persists g sv W cs s hempty g.n_nodes hk).1)
  have hchain : ∀ k ≤ g.n_nodes, k + 1 ≤ (visitedAt g sv W cs s k).card := by
    intro k hk
    induction k with
    | zero =>
      have : visitedAt g sv W cs s 0 = {s} := rfl
      rw [this]
      simp
    | succ k ih =>
      have hss := visitedAt_progress g sv W cs s hW hcs k
        (hall (k+1) hk)
      have := Finset.card_lt_card hss
      have hk' := ih (by omega)
      omega
  have hsub : visitedAt g sv W cs s g.n_nodes ⊆ Finset.range g.n_nodes :=
    (parState_inv hg hs sv hW hcs g.n_nodes).2.2.1
  have h1 := hchain g.n_nodes le_rfl
  have h2 : (visitedAt g sv W cs s g.n_nodes).card ≤ g.n_nodes := by
    calc (visitedAt g sv W cs s g.n_nodes).card ≤ (Finset.range g.n_nodes).card :=
          Finset.card_le_card hsub
      _ = g.n_nodes := Finset.card_range g.n_nodes
  omega

/-- The visited set is exactly the union of the frontiers so far. -/
theorem visitedAt_eq_union {g : Graph} (hg : WellFormed g) {s : Nat}
    (hs : s < g.n_nodes) (sv : Int) {W cs : Nat} (hW : 1 ≤ W) (hcs : 1 ≤ cs) :
    ∀ k u, u ∈ visitedAt g sv W cs s k ↔ ∃ i ≤ k, u ∈ frontierAt g sv W cs s i := by
  intro k
  induction k with
  | zero =>
    intro u
    constructor
    · intro hu
      refine ⟨0, le_rfl, ?_⟩
      have : u ∈ ({s} : Finset Nat) := hu
      rw [Finset.mem_singleton] at this
      rw [this]
      exact List.mem_singleton_self s
    · rintro ⟨i, hi, hu⟩
      cases Nat.le_zero.mp hi
      have : u ∈ ([s] : List Nat) := hu
      rw [List.mem_singleton] at this
      rw [this]
      exact Finset.mem_singleton_self s
  | succ k ih =>
    intro u
    constructor
    · intro hu
      unfold visitedAt at hu
      rw [parState_succ] at hu
      rcases hst : parState g sv W cs s k with ⟨F, V, occ⟩
      rw [hst] at hu
      unfold parStep at hu
      by_cases hF : F = []
      · subst hF
        rw [if_pos rfl] at hu
        rcases (ih u).mp (by rw [visitedAt, hst]; exact hu) with ⟨i, hi, hif⟩
        exact ⟨i, by omega, hif⟩
      · rw [if_neg hF] at hu
        obtain ⟨r1, r2, -⟩ := chunkedRound_spec g sv W cs hcs hW F V occ
        rw [r2] at hu
        rcases Finset.mem_union.mp hu with h | h
        · rcases (ih u).mp (by rw [visitedAt, hst]; exact h) with ⟨i, hi, hif⟩
          exact ⟨i, by omega, hif⟩
        · by_cases huV : u ∈ V
          · rcases (ih u).mp (by rw [visitedAt, hst]; exact huV) with ⟨i, hi, hif⟩
            exact ⟨i, by omega, hif⟩
          · refine ⟨k+1, le_rfl, ?_⟩
            unfold frontierAt
            rw [parState_succ, hst]
            unfold parStep
            rw [if_neg hF, r1, Finset.mem_sort]
            exact Finset.mem_sdiff.mpr ⟨h, huV⟩
    · rintro ⟨i, hi, hu⟩
      rcases Nat.lt_or_ge i (k+1) with hlt | hge
      · have h1 := (ih u).mpr ⟨i, Nat.lt_succ_iff.mp hlt, hu⟩
        exact visitedAt_mono g sv W cs s hW hcs k h1
      · have hieq : i = k + 1 := by omega
        rw [hieq] at hu
        exact frontierAt_subset_visited hg hs sv hW hcs (k+1) u hu

/-- At round `n_nodes` the visited set is exactly the reachable set. -/
theorem visitedAt_n_eq_reach {g : Graph} (hg : WellFormed g) {s : Nat}
    (hs : s < g.n_nodes) (sv : Int) {W cs : Nat} (hW : 1 ≤ W) (hcs : 1 ≤ cs) :
    visitedAt g sv W cs s g.n_nodes = reachFin g s := by
  have hF := frontierAt_n_empty hg hs sv hW hcs
  obtain ⟨-, hinv⟩ := parState_inv hg hs sv hW hcs g.n_nodes
  obtain ⟨-, -, hsV, hreach, hclosed, -⟩ := hinv
  apply eq_reachFin_of_closed hg hs hsV hreach
  intro u hu v hv
  apply hclosed u hu _ v hv
  rw [show (parState g sv W cs s g.n_nodes).1 = frontierAt g sv W cs s g.n_nodes from rfl,
    hF]
  simp

theorem parLoop_correct_ge {g : Graph} (hg : WellFormed g) {s : Nat} (hs : s < g.n_nodes)
    (sv : Int) {W cs : Nat} (hW : 1 ≤ W) (hcs : 1 ≤ cs) {fuel : Nat}
    (hfuel : g.n_nodes ≤ fuel) :
    parLoop g sv W cs fuel ([s], {s}, 0) = matchFin g sv (reachFin g s) := by
  have hsing : ([s] : List Nat).toFinset = {s} := by simp
  rw [parLoop_eq_levelRun g sv W cs hcs hW fuel [s] {s} 0 (List.nodup_singleton s), hsing]
  apply levelRun_correct hg hs sv _ _ _ _ (levelInv_init hs sv)
  have hsub : ({s} : Finset Nat) ⊆ Finset.range g.n_nodes := by
    simpa using Finset.mem_range.mpr hs
  rw [Finset.card_sdiff hsub]
  simp only [Finset.card_range, Finset.card_singleton]
  omega

/-!
## Claim theorems
-/

/-- C1: for every well-formed graph, valid start node, search value and worker
count `n_workers ≥ 1`, `parallel_bfs` returns the same occurrence count as
`sequential_bfs`; in particular the result does not depend on `n_workers`. -/
theorem parallel_bfs_eq_sequential_bfs (g : Graph) (s : Nat) (sv : Int) (W : Nat)
    (hg : WellFormed g) (hs : s < g.n_nodes) (hW : 1 ≤ W) :
    parallel_bfs g s sv W = sequential_bfs g s sv := by
  rw [parallel_bfs,
    parLoop_correct hg hs sv hW (by decide : (1:Nat) ≤ CHUNK_SIZE),
    sequential_bfs_correct hg hs sv]

/-- Example graph: the spec's five-node scenario (edges 0-1, 0-2, 1-3, 2-4,
symmetric adjacency, all values 7). -/
def g1 : Graph :=
  ⟨[⟨7, [1, 2]⟩, ⟨7, [0, 3]⟩, ⟨7, [0, 4]⟩, ⟨7, [1]⟩, ⟨7, [2]⟩]⟩

/-- Example graph: a single node with value 5. -/
def g2 : Graph := ⟨[⟨5, []⟩]⟩

theorem parallel_bfs_eq_sequential_bfs_witness :
    WellFormed g1 ∧ 0 < g1.n_nodes ∧ 1 ≤ 4 ∧
      parallel_bfs g1 0 7 4 = sequential_bfs g1 0 7 :=
  ⟨by decide, by decide, by decide,
    parallel_bfs_eq_sequential_bfs g1 0 7 4 (by decide) (by decide) (by decide)⟩

/-- C2: for every frontier length `L`, worker count `W ≥ 1` and chunk size
`cs ≥ 1`, the index sets assigned by the round-robin chunk policy are
pairwise disjoint and cover exactly `{0, ..., L-1}`. -/
theorem workerIdxs_disjoint_cover (L W cs : Nat) (hW : 1 ≤ W) (hcs : 1 ≤ cs) :
    (∀ t1, t1 < W → ∀ t2, t2 < W → t1 ≠ t2 →
      ∀ j, j ∈ workerIdxs L cs W t1 → j ∉ workerIdxs L cs W t2) ∧
    (∀ j, (∃ t, t < W ∧ j ∈ workerIdxs L cs W t) ↔ j < L) := by
  constructor
  · intro t1 h1 t2 h2 hne j hj1 hj2
    have e1 := ((mem_workerIdxs hcs hW h1 j).mp hj1).2
    have e2 := ((mem_workerIdxs hcs hW h2 j).mp hj2).2
    exact hne (e1 ▸ e2 ▸ rfl)
  · intro j
    constructor
    · rintro ⟨t, ht, hj⟩
      exact ((mem_workerIdxs hcs hW ht j).mp hj).1
    · intro hj
      exact ⟨assignW L cs W j, assignW_lt hW,
        (mem_workerIdxs hcs hW (assignW_lt hW) j).mpr ⟨hj, rfl⟩⟩

theorem workerIdxs_disjoint_cover_witness :
    1 ≤ 2 ∧ 1 ≤ 2 ∧ 2 ∉ workerIdxs 5 2 2 0 :=
  ⟨by decide, by decide,
    (workerIdxs_disjoint_cover 5 2 2 (by decide) (by decide)).1 1 (by decide) 0
      (by decide) (by decide) 2 (by decide)⟩

/-- C4: the orchestrator loop terminates within `n_nodes` rounds: any extra
round budget yields the same result, the visited set is monotone, every round
with a nonempty next frontier strictly grows the visited set, and the frontier
is empty by round `n_nodes`. -/
theorem parallel_bfs_terminates (g : Graph) (s : Nat) (sv : Int) (W : Nat)
    (hg : WellFormed g) (hs : s < g.n_nodes) (hW : 1 ≤ W) :
    (∀ j, parLoop g sv W CHUNK_SIZE (g.n_nodes + j) ([s], {s}, 0) =
      parallel_bfs g s sv W) ∧
    (∀ k, visitedAt g sv W CHUNK_SIZE s k ⊆ visitedAt g sv W CHUNK_SIZE s (k+1)) ∧
    (∀ k, frontierAt g sv W CHUNK_SIZE s (k+1) ≠ [] →
      visitedAt g sv W CHUNK_SIZE s k ⊂ visitedAt g sv W CHUNK_SIZE s (k+1)) ∧
    frontierAt g sv W CHUNK_SIZE s g.n_nodes = [] := by
  have hcs : (1:Nat) ≤ CHUNK_SIZE := by decide
  refine ⟨?_, ?_, ?_, ?_⟩
  · intro j
    rw [parallel_bfs, parLoop_correct hg hs sv hW hcs,
      parLoop_correct_ge hg hs sv hW hcs (Nat.le_add_right _ j)]
  · exact fun k => visitedAt_mono g sv W CHUNK_SIZE s hW hcs k
  · exact fun k => visitedAt_progress g sv W CHUNK_SIZE s hW hcs k
  · exact frontierAt_n_empty hg hs sv hW hcs

theorem parallel_bfs_terminates_witness :
    WellFormed g1 ∧ 0 < g1.n_nodes ∧ 1 ≤ 2 ∧
      frontierAt g1 7 2 CHUNK_SIZE 0 g1.n_nodes = [] :=
  ⟨by decide, by decide, by decide,
    (parallel_bfs_terminates g1 0 7 2 (by decide) (by decide) (by decide)).2.2.2⟩

/-- C5: the merge phase produces the strictly increasing enumeration of the
union of the worker buffers, leaves every buffer empty, and its result depends
only on the union as a set (hence is independent of thread scheduling). -/
theorem mergeClear_spec (bufs : List (List Nat)) :
    (mergeClear bufs).1.Sorted (· < ·) ∧
    (∀ x, x ∈ (mergeClear bufs).1 ↔ ∃ b ∈ bufs, x ∈ b) ∧
    (mergeClear bufs).2 = bufs.map (fun _ => []) ∧
    (∀ bufs' : List (List Nat),
      (∀ x, (∃ b ∈ bufs, x ∈ b) ↔ ∃ b' ∈ bufs', x ∈ b') →
      (mergeClear bufs).1 = (mergeClear bufs').1) := by
  refine ⟨?_, ?_, rfl, ?_⟩
  · rw [mergeClear_fst]
    exact Finset.sort_sorted_lt _
  · intro x
    rw [mergeClear_fst, Finset.mem_sort, List.mem_toFinset, List.mem_flatten]
  · intro bufs' hset
    rw [mergeClear_fst, mergeClear_fst]
    congr 1
    ext x
    rw [List.mem_toFinset, List.mem_toFinset, List.mem_flatten, List.mem_flatten]
    exact hset x

theorem mergeClear_spec_witness :
    (mergeClear [[2, 1], [1, 3]]).1.Sorted (· < ·) ∧
      (mergeClear [[2, 1], [1, 3]]).1 = (mergeClear [[3, 2], [1]]).1 :=
  ⟨(mergeClear_spec [[2, 1], [1, 3]]).1,
    (mergeClear_spec [[2, 1], [1, 3]]).2.2.2 [[3, 2], [1]] (by
      intro x
      simp
      omega)⟩

/-- C6: every node reachable from the start node appears in exactly one
round's frontier of `parallel_bfs`. -/
theorem reachable_in_unique_frontier (g : Graph) (s : Nat) (sv : Int) (W : Nat)
    (hg : WellFormed g) (hs : s < g.n_nodes) (hW : 1 ≤ W) :
    ∀ u, Reachable g s u → ∃! k, u ∈ frontierAt g sv W CHUNK_SIZE s k := by
  have hcs : (1:Nat) ≤ CHUNK_SIZE := by decide
  intro u hr
  have hu : u ∈ visitedAt g sv W CHUNK_SIZE s g.n_nodes := by
    rw [visitedAt_n_eq_reach hg hs sv hW hcs]
    exact reachFin_complete hg hs u hr
  rcases (visitedAt_eq_union hg hs sv hW hcs g.n_nodes u).mp hu with ⟨i, hi, hif⟩
  refine ⟨i, hif, ?_⟩
  intro k hk
  by_contra hne
  rcases Nat.lt_or_ge k i with h | h
  · exact frontierAt_pairwise_disjoint hg hs sv hW hcs h u hk hif
  · have hik : i < k := lt_of_le_of_ne h (fun he => hne he.symm)
    exact frontierAt_pairwise_disjoint hg hs sv hW hcs hik u hif hk

theorem reachable_in_unique_frontier_witness :
    WellFormed g1 ∧ 0 < g1.n_nodes ∧ 1 ≤ 2 ∧ Reachable g1 0 3 ∧
      (∃! k, 3 ∈ frontierAt g1 7 2 CHUNK_SIZE 0 k) :=
  ⟨by decide, by decide, by decide,
    Reachable.step 1 3 (Reachable.step 0 1 Reachable.refl (by decide)) (by decide),
    reachable_in_unique_frontier g1 0 7 2 (by decide) (by decide) (by decide) 3
      (Reachable.step 1 3 (Reachable.step 0 1 Reachable.refl (by decide)) (by decide))⟩

/-- C7: the fixed-size round-robin chunk engine and the per-round contiguous
split engine return the same occurrence count. -/
theorem parallel_bfs_eq_static (g : Graph) (s : Nat) (sv : Int) (W : Nat)
    (hg : WellFormed g) (hs : s < g.n_nodes) (hW : 1 ≤ W) :
    parallel_bfs g s sv W = parallel_bfs_static g s sv W := by
  rw [parallel_bfs, parallel_bfs_static,
    parLoop_correct hg hs sv hW (by decide : (1:Nat) ≤ CHUNK_SIZE),
    statLoop_correct hg hs sv hW]

theorem parallel_bfs_eq_static_witness :
    WellFormed g1 ∧ 0 < g1.n_nodes ∧ 1 ≤ 3 ∧
      parallel_bfs g1 0 7 3 = parallel_bfs_static g1 0 7 3 :=
  ⟨by decide, by decide, by decide,
    parallel_bfs_eq_static g1 0 7 3 (by decide) (by decide) (by decide)⟩

/-- C8: the start node is examined in round 0; on a single-node graph whose
node 0 matches the search value, `parallel_bfs` returns 1 for every worker
count, and the frontier is empty after one round. -/
theorem parallel_bfs_single_node (g : Graph) (sv : Int) (W : Nat)
    (hg : WellFormed g) (h1 : g.n_nodes = 1) (hv : g.valueOf 0 = sv) (hW : 1 ≤ W) :
    parallel_bfs g 0 sv W = 1 ∧
    frontierAt g sv W CHUNK_SIZE 0 1 = [] := by
  have hs : 0 < g.n_nodes := by omega
  have hcs : (1:Nat) ≤ CHUNK_SIZE := by decide
  constructor
  · rw [parallel_bfs, parLoop_correct hg hs sv hW hcs]
    have hsub : reachFin g 0 ⊆ Finset.range g.n_nodes :=
      iterate_expandR_subset_range hg hs g.n_nodes
    have hr : reachFin g 0 = {0} := by
      apply Finset.Subset.antisymm
      · intro x hx
        have := hsub hx
        rw [h1] at this
        simpa using this
      · intro x hx
        rw [Finset.mem_singleton] at hx
        rw [hx]
        exact mem_reachFin_self
    rw [matchFin, hr, Finset.filter_singleton, if_pos hv]
    rfl
  · have := frontierAt_n_empty hg hs sv hW hcs
    rwa [h1] at this

theorem parallel_bfs_single_node_witness :
    WellFormed g2 ∧ g2.n_nodes = 1 ∧ g2.valueOf 0 = 5 ∧ 1 ≤ 3 ∧
      parallel_bfs g2 0 5 3 = 1 :=
  ⟨by decide, by decide, by decide, by decide,
    (parallel_bfs_single_node g2 5 3 (by decide) (by decide) (by decide) (by decide)).1⟩

/-- C9: `sequential_bfs` returns exactly the number of nodes reachable from
the start node (start node included) whose value equals the search value,
each counted once; `reachFin` is proved to coincide with the inductive
reachability relation. -/
theorem sequential_bfs_counts_reachable (g : Graph) (s : Nat) (sv : Int)
    (hg : WellFormed g) (hs : s < g.n_nodes) :
    sequential_bfs g s sv = ((reachFin g s).filter (fun u => g.valueOf u = sv)).card ∧
    (∀ u, u ∈ reachFin g s ↔ Reachable g s u) :=
  ⟨sequential_bfs_correct hg hs sv, fun u => mem_reachFin_iff hg hs u⟩

theorem sequential_bfs_counts_reachable_witness :
    WellFormed g1 ∧ 0 < g1.n_nodes ∧
      sequential_bfs g1 0 7 = ((reachFin g1 0).filter (fun u => g1.valueOf u = 7)).card :=
  ⟨by decide, by decide,
    (sequential_bfs_counts_reachable g1 0 7 (by decide) (by decide)).1⟩

/-- C10: loop invariant of `parallel_bfs`: every frontier node is visited at
the start of its round, the visited set only grows (flags are never reset),
and the frontiers of distinct rounds are pairwise disjoint. -/
theorem parallel_bfs_loop_invariant (g : Graph) (s : Nat) (sv : Int) (W : Nat)
    (hg : WellFormed g) (hs : s < g.n_nodes) (hW : 1 ≤ W) :
    (∀ k, ∀ u ∈ frontierAt g sv W CHUNK_SIZE s k, u ∈ visitedAt g sv W CHUNK_SIZE s k) ∧
    (∀ k, visitedAt g sv W CHUNK_SIZE s k ⊆ visitedAt g sv W CHUNK_SIZE s (k+1)) ∧
    (∀ i j, i < j → ∀ u, u ∈ frontierAt g sv W CHUNK_SIZE s i →
      u ∉ frontierAt g sv W CHUNK_SIZE s j) := by
  have hcs : (1:Nat) ≤ CHUNK_SIZE := by decide
  refine ⟨?_, ?_, ?_⟩
  · exact fun k => frontierAt_subset_visited hg hs sv hW hcs k
  · exact fun k => visitedAt_mono g sv W CHUNK_SIZE s hW hcs k
  · exact fun i j hij => frontierAt_pairwise_disjoint hg hs sv hW hcs hij

theorem parallel_bfs_loop_invariant_witness :
    WellFormed g1 ∧ 0 < g1.n_nodes ∧ 1 ≤ 2 ∧
      0 ∉ frontierAt g1 7 2 CHUNK_SIZE 0 1 :=
  ⟨by decide, by decide, by decide,
    (parallel_bfs_loop_invariant g1 0 7 2 (by decide) (by decide) (by decide)).2.2 0 1
      (by decide) 0 (by decide)⟩

/-!
## The reusable Barrier (`class Barrier` in `src/bfs_thread.cpp`)

Interleaving model of `MasterWait` / `WorkerWait` / `StartWorkers` at the
granularity fixed by C++ condition-variable semantics, under sequential
consistency and without spurious wakeups:

* `cv.wait(lock, pred)` is `while (!pred()) wait(lock)`; evaluating the
  predicate (under the mutex) and the atomic release-and-block of `wait` are
  distinct steps, so a thread that does not hold *that* mutex can interleave
  between them — exactly the window the model must expose, because
  `MasterWait` reads and resets `stop_master` under `m_mutex` while
  `WorkerWait` sets it under `w_mutex` (two different mutexes);
* everything a worker does inside `WorkerWait` while continuously holding
  `w_mutex` (snapshot `l_gen`, `--m_count`, reset/notify) is collapsed into
  single atomic steps, which only removes interleavings and cannot create
  spurious behaviours;
* `notify_one` on a condition variable with no blocked waiter is a no-op.

Thread ids: `0` is the orchestrator (master), `i+1` is worker `i`.
-/

inductive MPc
  | mEnter    -- about to lock m_mutex (entry of MasterWait)
  | mCheck    -- holds m_mutex, about to evaluate the predicate `stop_master`
  | mSleep    -- predicate was false: about to atomically release m_mutex and block
  | mBlocked  -- blocked on m_cond
  | mRelock   -- woken by notify: reacquire m_mutex, then re-check
  | mReturned -- MasterWait returned (stop_master reset, m_mutex released)
deriving DecidableEq

inductive WPc
  | wRun              -- running its round work (outside the barrier)
  | wEnter            -- about to lock w_mutex (entry of WorkerWait)
  | wCrit             -- holds w_mutex: snapshot l_gen, --m_count, maybe notify
  | wCheck (lgen : Nat)   -- holds w_mutex: evaluate `l_gen != m_generation`
  | wBlocked (lgen : Nat) -- blocked on w_cond
  | wRelock (lgen : Nat)  -- woken: reacquire w_mutex, then re-check
  | wReturned             -- WorkerWait returned
deriving DecidableEq

structure BarrierSt where
  mpc : MPc
  wpcs : List WPc
  m_count : Nat
  m_threshold : Nat
  m_generation : Nat
  stop_master : Bool
  mOwner : Bool      -- m_mutex held (only the master ever locks it)
  wOwner : Option Nat -- w_mutex owner (thread id)
deriving DecidableEq

/-- One atomic step of thread `tid` (`none` = blocked / no such thread). -/
def stepB (s : BarrierSt) (tid : Nat) : Option BarrierSt :=
  if tid = 0 then
    match s.mpc with
    | .mEnter => if s.mOwner then none else some {s with mOwner := true, mpc := .mCheck}
    | .mCheck =>
        if s.stop_master then
          some {s with stop_master := false, mOwner := false, mpc := .mReturned}
        else some {s with mpc := .mSleep}
    | .mSleep => some {s with mOwner := false, mpc := .mBlocked}
    | .mBlocked => none
    | .mRelock => if s.mOwner then none else some {s with mOwner := true, mpc := .mCheck}
    | .mReturned => none
  else
    match s.wpcs.get? (tid - 1) with
    | none => none
    | some w =>
      match w with
      | .wRun => some {s with wpcs := s.wpcs.set (tid - 1) .wEnter}
      | .wEnter =>
          if s.wOwner = none then
            some {s with wOwner := some tid, wpcs := s.wpcs.set (tid - 1) .wCrit}
          else none
      | .wCrit =>
          -- auto l_gen = m_generation; if (!--m_count) { m_count = m_threshold;
          --   stop_master = true; m_cond.notify_one(); }
          if s.m_count - 1 = 0 then
            some { s with
              m_count := s.m_threshold,
              stop_master := true,
              mpc := if s.mpc = .mBlocked then .mRelock else s.mpc,
              wpcs := s.wpcs.set (tid - 1) (.wCheck s.m_generation) }
          else
            some { s with
              m_count := s.m_count - 1,
              wpcs := s.wpcs.set (tid - 1) (.wCheck s.m_generation) }
      | .wCheck lgen =>
          -- w_cond.wait(w_lock, [&]{ return l_gen != m_generation; })
          if lgen ≠ s.m_generation then
            some {s with wOwner := none, wpcs := s.wpcs.set (tid - 1) .wReturned}
          else
            some {s with wOwner := none, wpcs := s.wpcs.set (tid - 1) (.wBlocked lgen)}
      | .wBlocked _ => none
      | .wRelock lgen =>
          if s.wOwner = none then
            some {s with wOwner := some tid, wpcs := s.wpcs.set (tid - 1) (.wCheck lgen)}
          else none
      | .wReturned => none

/-- Run a schedule (list of thread ids); `none` if a scheduled thread is
blocked. -/
def runB : BarrierSt → List Nat → Option BarrierSt
  | s, [] => some s
  | s, t :: ts =>
      match stepB s t with
      | none => none
      | some s' => runB s' ts

/-- Round-0 configuration of the barrier inside `parallel_bfs` with `W`
workers: `first_iteration` makes the master skip `StartWorkers` and go
straight into `MasterWait`, while the workers process the seeded frontier and
enter `WorkerWait`. -/
def barrierInit (W : Nat) : BarrierSt :=
  { mpc := .mEnter, wpcs := List.replicate W .wRun, m_count := W, m_threshold := W,
    m_generation := 0, stop_master := false, mOwner := false, wOwner := none }

/-- The state reached by the deadlocking schedule below (`W = 1`). -/
def deadSt : BarrierSt :=
  { mpc := .mBlocked, wpcs := [.wBlocked 0], m_count := 1, m_threshold := 1,
    m_generation := 0, stop_master := true, mOwner := false, wOwner := none }

/-- In the common interleaving the rendezvous works: the single worker
finishes `WorkerWait`'s announcement before the master evaluates the
predicate, so `MasterWait` sees `stop_master` already true and returns. -/
theorem barrier_good_schedule :
    ∃ s, runB (barrierInit 1) [1, 1, 1, 1, 0, 0] = some s ∧ s.mpc = MPc.mReturned := by
  refine ⟨_, rfl, rfl⟩

theorem stepB_none_of_big (s : BarrierSt) (n : Nat) (h : s.wpcs.length ≤ n) :
    stepB s (n + 1) = none := by
  unfold stepB
  simp only [Nat.add_sub_cancel]
  have hge : s.wpcs[n]? = none := List.getElem?_eq_none h
  simp [hge]

/-- C3 (refuting theorem): the barrier can miss the workers' completion
notification.  With `W = 1`, round 0: the orchestrator enters `MasterWait`,
locks `m_mutex` and evaluates the predicate — `stop_master` is still false.
The worker then runs `WorkerWait` to completion: it brings `m_count` to zero,
sets `stop_master = true`, calls `m_cond.notify_one()` — which is lost, since
the orchestrator is not yet blocked and the worker holds `w_mutex`, not
`m_mutex` — and blocks on `w_cond`.  The orchestrator then blocks on `m_cond`.
The resulting state has `stop_master = true` but every thread permanently
blocked: `MasterWait` never returns, contradicting the claim that the wait
never misses the completion notification. -/
theorem barrier_lost_wakeup_deadlock :
    runB (barrierInit 1) [0, 0, 1, 1, 1, 1, 0] = some deadSt ∧
    deadSt.stop_master = true ∧
    deadSt.mpc = MPc.mBlocked ∧
    deadSt.mpc ≠ MPc.mReturned ∧
    (∀ tid, stepB deadSt tid = none) := by
  refine ⟨by decide, rfl, rfl, by decide, ?_⟩
  intro tid
  match tid with
  | 0 => rfl
  | 1 => rfl
  | n + 2 =>
    apply stepB_none_of_big
    simp [deadSt]
